import Mathlib

/-!
# GoVault: the storage driver and its HTTP handlers

A shallow embedding of `drivers/drivers.go` and `routes/routes.go`.

* Paths are Go strings.  `Clean` and `Join` follow `path/filepath` on Unix.
* The file system is a finite table from resolved paths (lists of names below a
  fixed anchor directory, the working directory or the root) to nodes.  The
  `os` functions the driver calls are modelled on that table; there are no
  permissions, no links and no size limits.
* The driver functions thread the file system explicitly and return it together
  with the Go `error` (`none` is `nil`).
* The lock table of the driver is modelled on its own (`getOrCreateMutex`).
  Taking and releasing a lock has no effect on the result of a single call, so
  the driver functions below do not mention it.
-/

namespace GoVault

deriving instance DecidableEq for Except

/-! ## Paths -/

/-- Split a character sequence at every slash; the result is never empty. -/
def splitSlash : List Char → List (List Char)
  | [] => [[]]
  | c :: cs =>
    if c = '/' then [] :: splitSlash cs
    else
      match splitSlash cs with
      | [] => [[c]]
      | w :: ws => (c :: w) :: ws

/-- Put a slash between consecutive components. -/
def joinSlash : List (List Char) → List Char
  | [] => []
  | [a] => a
  | a :: b :: rest => a ++ '/' :: joinSlash (b :: rest)

/-- One step of the scan of `filepath.Clean`: the stack holds the components
written so far, the last one first. -/
def cleanStep (rooted : Bool) (stack : List (List Char)) (seg : List Char) :
    List (List Char) :=
  if seg = [] ∨ seg = ['.'] then stack
  else if seg = ['.', '.'] then
    match stack with
    | [] => if rooted then [] else [seg]
    | top :: rest => if rooted = false ∧ top = ['.', '.'] then seg :: stack else rest
  else seg :: stack

/-- The text that `filepath.Clean` returns for a list of components. -/
def render (rooted : Bool) (comps : List (List Char)) : List Char :=
  if rooted then '/' :: joinSlash comps
  else if comps = [] then ['.'] else joinSlash comps

/-- The components that `filepath.Clean` keeps, first one first. -/
def cleanComps (rooted : Bool) (path : List Char) : List (List Char) :=
  ((splitSlash path).foldl (cleanStep rooted) []).reverse

/-- Whether a path starts at the root. -/
def isRooted (path : List Char) : Bool :=
  match path with
  | c :: _ => c = '/'
  | [] => false

/-- Go `filepath.Clean` on Unix. -/
def Clean (path : String) : String :=
  if path.data = [] then "."
  else String.mk (render (isRooted path.data) (cleanComps (isRooted path.data) path.data))

/-- Go `strings.Join(elems, "/")`. -/
def joinElems : List String → List Char
  | [] => []
  | [a] => a.data
  | a :: b :: rest => a.data ++ '/' :: joinElems (b :: rest)

/-- Go `filepath.Join`: the elements from the first non-empty one on are joined
with slashes and cleaned; the result is empty when every element is empty. -/
def Join : List String → String
  | [] => ""
  | e :: rest => if e.data = [] then Join rest else Clean (String.mk (joinElems (e :: rest)))

/-- Go `strings.ReplaceAll(s, " ", "_")`. -/
def replaceSpaces (s : String) : String :=
  String.mk (s.data.map (fun c => if c = ' ' then '_' else c))

/-- The location the operating system resolves a path to: its names, below the
anchor directory.  Empty names and `.` are skipped; the driver only ever passes
cleaned paths, in which `..` can stand at the front only, and it is kept as a
name. -/
def osKey (p : String) : List String :=
  ((splitSlash p.data).filter (fun s => decide (s ≠ [] ∧ s ≠ ['.']))).map String.mk

/-! ## The file system -/

/-- A node of the file system: a regular file with its content, or a directory. -/
inductive Node where
  | file (content : String)
  | dir
  deriving DecidableEq, Repr

/-- The errors the driver can return. -/
inductive Error where
  /-- An empty collection or resource name, reported by the driver. -/
  | validation (msg : String)
  /-- The error of `Delete` when `stat` finds nothing at the path. -/
  | unableToFind (path : String)
  /-- ENOENT: the path does not exist. -/
  | notExist
  /-- ENOTDIR: a component of the path is not a directory. -/
  | notDir
  /-- EISDIR: the path is a directory. -/
  | isDir
  /-- EINVAL, ENOTEMPTY and the like. -/
  | invalid
  /-- The value cannot be serialised. -/
  | marshal
  /-- The bytes are not the JSON of a value of the requested type. -/
  | decode
  deriving DecidableEq, Repr

/-- Go `os.IsNotExist`. -/
def Error.isNotExist : Error → Bool
  | .notExist => true
  | _ => false

/-- The file system: a table from locations to nodes; the first entry of a
location counts. -/
abbrev FS := List (List String × Node)

/-- The first entry stored for a location. -/
def FS.find : FS → List String → Option Node
  | [], _ => none
  | (k, n) :: rest, p => if k = p then some n else FS.find rest p

/-- The node at a location; the anchor directory always exists. -/
def FS.lookup (fs : FS) (p : List String) : Option Node :=
  if p = [] then some Node.dir else fs.find p

/-- Drop the entry of one location. -/
def FS.remove (fs : FS) (p : List String) : FS :=
  fs.filter (fun e => decide (e.1 ≠ p))

/-- Store a node at a location, replacing what was there. -/
def FS.set (fs : FS) (p : List String) (n : Node) : FS :=
  (p, n) :: fs.remove p

/-- Whether location `k` is `d` or lies below it. -/
def below : List String → List String → Bool
  | [], _ => true
  | _ :: _, [] => false
  | a :: d, b :: k => decide (a = b) && below d k

/-- The proper ancestors of a location, the anchor first. -/
def ancestors : List String → List (List String)
  | [] => []
  | [_] => [[]]
  | a :: b :: rest => [] :: (ancestors (b :: rest)).map (fun p => a :: p)

/-- Whether a proper ancestor of the location is a regular file. -/
def fileAbove (fs : FS) (p : List String) : Bool :=
  (ancestors p).any (fun a => match fs.lookup a with
    | some (Node.file _) => true
    | _ => false)

/-- The error of a system call on a missing location. -/
def missingError (fs : FS) (p : List String) : Error :=
  if fileAbove fs p then Error.notDir else Error.notExist

/-- The name of `k` when `k` is an entry of directory `d`. -/
def childName : List String → List String → Option String
  | [], [x] => some x
  | a :: d, b :: k => if a = b then childName d k else none
  | _, _ => none

/-- The order of Go strings: byte by byte, which on UTF-8 text is the order of
the code points. -/
def ltChars : List Char → List Char → Bool
  | [], [] => false
  | [], _ :: _ => true
  | _ :: _, [] => false
  | a :: x, b :: y => if a.toNat < b.toNat then true else if a = b then ltChars x y else false

/-- Insert a name into a sorted list of names. -/
def insertName (x : String) : List String → List String
  | [] => [x]
  | y :: ys =>
    if ltChars x.data y.data then x :: y :: ys
    else if x = y then y :: ys
    else y :: insertName x ys

/-- Sort names, dropping repetitions. -/
def sortNames : List String → List String
  | [] => []
  | x :: xs => insertName x (sortNames xs)

/-- The names of the entries of a directory, sorted by name. -/
def FS.names (fs : FS) (d : List String) : List String :=
  sortNames (fs.filterMap (fun e => childName d e.1))

/-- Go `os.Stat`. -/
def osStat (fs : FS) (path : String) : Except Error Node :=
  match fs.lookup (osKey path) with
  | some n => .ok n
  | none => .error (missingError fs (osKey path))

/-- Create the directories on the way from the anchor to `done ++ todo`. -/
def mkdirs (fs : FS) (done : List String) : List String → FS × Option Error
  | [] => (fs, none)
  | x :: todo =>
    match fs.lookup (done ++ [x]) with
    | some Node.dir => mkdirs fs (done ++ [x]) todo
    | some (Node.file _) => (fs, some Error.notDir)
    | none => mkdirs (fs.set (done ++ [x]) Node.dir) (done ++ [x]) todo

/-- Go `os.MkdirAll`: the directory and its missing parents are created; a
regular file on the way is an error. -/
def osMkdirAll (fs : FS) (path : String) : FS × Option Error :=
  mkdirs fs [] (osKey path)

/-- Go `os.WriteFile`: the parent must be a directory and the path must not be
one; the file is created or its content replaced. -/
def osWriteFile (fs : FS) (path : String) (b : String) : FS × Option Error :=
  let k := osKey path
  if k = [] then (fs, some Error.isDir)
  else
    match fs.lookup k.dropLast with
    | none => (fs, some (missingError fs k))
    | some (Node.file _) => (fs, some Error.notDir)
    | some Node.dir =>
      match fs.lookup k with
      | some Node.dir => (fs, some Error.isDir)
      | _ => (fs.set k (Node.file b), none)

/-- Go `os.ReadFile`. -/
def osReadFile (fs : FS) (path : String) : Except Error String :=
  match fs.lookup (osKey path) with
  | some (Node.file c) => .ok c
  | some Node.dir => .error Error.isDir
  | none => .error (missingError fs (osKey path))

/-- Go `os.ReadDir`: the names of the entries, sorted by file name. -/
def osReadDir (fs : FS) (path : String) : Except Error (List String) :=
  match fs.lookup (osKey path) with
  | some Node.dir => .ok (fs.names (osKey path))
  | some (Node.file _) => .error Error.notDir
  | none => .error (missingError fs (osKey path))

/-- Go `os.RemoveAll`: the path and everything below it is removed; a path that
does not exist is no error; the anchor itself cannot be removed. -/
def osRemoveAll (fs : FS) (path : String) : FS × Option Error :=
  if osKey path = [] then (fs, some Error.invalid)
  else (fs.filter (fun e => !below (osKey path) e.1), none)

/-- Move every entry at or below `src` to the same place below `dst`. -/
def moveTree (fs : FS) (src dst : List String) : FS :=
  fs.map (fun e => if below src e.1 then (dst ++ e.1.drop src.length, e.2) else e)

/-- Go `os.Rename`: a regular file replaces a regular file or takes a free
name; a directory takes a free name or replaces an empty directory. -/
def osRename (fs : FS) (oldpath newpath : String) : FS × Option Error :=
  let ko := osKey oldpath
  let kn := osKey newpath
  if ko = [] ∨ kn = [] then (fs, some Error.invalid)
  else
    match fs.lookup ko with
    | none => (fs, some (missingError fs ko))
    | some (Node.file c) =>
      match fs.lookup kn.dropLast with
      | none => (fs, some (missingError fs kn))
      | some (Node.file _) => (fs, some Error.notDir)
      | some Node.dir =>
        match fs.lookup kn with
        | some Node.dir => (fs, some Error.isDir)
        | _ => ((fs.remove ko).set kn (Node.file c), none)
    | some Node.dir =>
      match fs.lookup kn.dropLast with
      | none => (fs, some (missingError fs kn))
      | some (Node.file _) => (fs, some Error.notDir)
      | some Node.dir =>
        if below ko kn then (if ko = kn then (fs, none) else (fs, some Error.invalid))
        else
          match fs.lookup kn with
          | some (Node.file _) => (fs, some Error.notDir)
          | some Node.dir =>
            if fs.names kn = [] then (moveTree (fs.remove kn) ko kn, none)
            else (fs, some Error.invalid)
          | none => (moveTree fs ko kn, none)

/-! ## The driver (`drivers/drivers.go`) -/

/-- The driver: its base directory.  The logger has no effect on the results. -/
structure Driver where
  dir : String
  deriving DecidableEq, Repr

/-- The function `stat`: `os.Stat` of the path and, when that does not exist, of
the path with `.json` appended. -/
def stat (fs : FS) (path : String) : Except Error Node :=
  match osStat fs path with
  | .error e => if e.isNotExist then osStat fs (path ++ ".json") else .error e
  | .ok fi => .ok fi

/-- The function `New`: the driver for the cleaned directory.  When `stat` fails
the driver is returned at once with a nil error; otherwise the result of
`os.MkdirAll` is returned with it. -/
def New (fs : FS) (dir : String) : Driver × FS × Option Error :=
  let dir := Clean dir
  let driver : Driver := { dir := dir }
  match stat fs dir with
  | .error _ => (driver, fs, none)
  | .ok _ =>
    let r := osMkdirAll fs dir
    (driver, r.1, r.2)

/-- The function `Connect`: `New` on the directory `./`. -/
def Connect (fs : FS) : Driver × FS × Option Error :=
  New fs "./"

/-- The final path of `Write`. -/
def finalPath (d : Driver) (collection resource : String) : String :=
  Join [Join [d.dir, collection], replaceSpaces resource ++ ".json"]

/-- The temporary path of `Write`. -/
def tmpPath (d : Driver) (collection resource : String) : String :=
  finalPath d collection resource ++ ".tmp"

/-- The method `Write` up to and including `os.WriteFile` of the temporary
file: the checks of the names, `os.MkdirAll` of the collection directory, the
serialisation with a newline appended, and the write to the temporary path.
The argument `marshal` stands for `json.MarshalIndent` with a tab as indent. -/
def writeTmp {α : Type} (marshal : α → Option String) (d : Driver) (fs : FS)
    (collection resource : String) (v : α) : FS × Option Error :=
  if collection = "" then
    (fs, some (Error.validation "Missing collection name - no place to save data!"))
  else if resource = "" then
    (fs, some (Error.validation "Missing resource name - unable to save record!"))
  else
    let dir := Join [d.dir, collection]
    match osMkdirAll fs dir with
    | (fs1, some e) => (fs1, some e)
    | (fs1, none) =>
      match marshal v with
      | none => (fs1, some Error.marshal)
      | some b => osWriteFile fs1 (tmpPath d collection resource) (b ++ "\n")

/-- The method `Write`: after the temporary file is written it is renamed to
the final path. -/
def Write {α : Type} (marshal : α → Option String) (d : Driver) (fs : FS)
    (collection resource : String) (v : α) : FS × Option Error :=
  match writeTmp marshal d fs collection resource v with
  | (fs2, some e) => (fs2, some e)
  | (fs2, none) =>
    osRename fs2 (tmpPath d collection resource) (finalPath d collection resource)

/-- The method `Read`; the argument `unmarshal` stands for `json.Unmarshal`
into the value the caller passes. -/
def Read {α : Type} (unmarshal : String → Option α) (d : Driver) (fs : FS)
    (collection resource : String) : Except Error α :=
  if collection = "" then
    .error (Error.validation "Missing collection name - unable to read the data!")
  else if resource = "" then
    .error (Error.validation "Missing resource name - unable to read record!")
  else
    let record := Join [d.dir, collection, replaceSpaces resource]
    match stat fs record with
    | .error e => .error e
    | .ok _ =>
      match osReadFile fs (record ++ ".json") with
      | .error e => .error e
      | .ok b =>
        match unmarshal b with
        | none => .error Error.decode
        | some v => .ok v

/-- The loop of `ReadAll`: the files are read in order, the first error ends
the loop. -/
def readFiles (fs : FS) (dir : String) : List String → Except Error (List String)
  | [] => .ok []
  | name :: rest =>
    match osReadFile fs (Join [dir, name]) with
    | .error e => .error e
    | .ok record =>
      match readFiles fs dir rest with
      | .error e => .error e
      | .ok records => .ok (record :: records)

/-- The method `ReadAll`; the error of `os.ReadDir` is dropped and its list is
then empty. -/
def ReadAll (d : Driver) (fs : FS) (collection : String) : Except Error (List String) :=
  if collection = "" then
    .error (Error.validation "Missing collection name - unable to read data!")
  else
    let dir := Join [d.dir, collection]
    match stat fs dir with
    | .error e => .error e
    | .ok _ =>
      let files := match osReadDir fs dir with
        | .ok names => names
        | .error _ => []
      readFiles fs dir files

/-- The method `Delete`.  A node is a directory or a regular file, so one of the
cases of the `switch` applies and the `return nil` after it is not reached. -/
def Delete (d : Driver) (fs : FS) (collection resource : String) : FS × Option Error :=
  if collection = "" then
    (fs, some (Error.validation "Missing collection name - unable to delete record!"))
  else
    let resource := if resource ≠ "" then replaceSpaces resource else resource
    let path := Join [collection, resource]
    let dir := Join [d.dir, path]
    match stat fs dir with
    | .error _ => (fs, some (Error.unableToFind path))
    | .ok Node.dir => osRemoveAll fs dir
    | .ok (Node.file _) => osRemoveAll fs (dir ++ ".json")

/-- The lock table `mutexes` of the driver: the collection names that have a
mutex, each with the identity of its mutex. -/
abbrev LockTable := List (String × Nat)

/-- The mutex stored for a collection name. -/
def LockTable.get : LockTable → String → Option Nat
  | [], _ => none
  | (name, m) :: rest, c => if name = c then some m else LockTable.get rest c

/-- The method `getOrCreateMutex`: the mutex stored for the collection, or a
new one, which is stored under the name. -/
def getOrCreateMutex (t : LockTable) (collection : String) : Nat × LockTable :=
  match t.get collection with
  | some m => (m, t)
  | none => (t.length, t ++ [(collection, t.length)])

/-! ## The handlers (`routes/routes.go`) -/

/-- The type `Address`; `json.Number` is a string type. -/
structure Address where
  City : String
  State : String
  Country : String
  Pincode : String
  deriving DecidableEq, Repr

/-- The type `User`. -/
structure User where
  Name : String
  Age : String
  Contact : String
  Company : String
  Address : Address
  deriving DecidableEq, Repr

/-- The zero value of `Address`. -/
def Address.zero : Address := { City := "", State := "", Country := "", Pincode := "" }

/-- The zero value of `User`, the value of `User{}`. -/
def User.zero : User :=
  { Name := "", Age := "", Contact := "", Company := "", Address := Address.zero }

/-- The function `copyNonEmptyFields`: field by field, in the order of the
declaration, a field of `src` that is not the zero value is stored in `dest`. -/
def copyNonEmptyFields (src dest : User) : User :=
  let dest := if src.Name ≠ "" then { dest with Name := src.Name } else dest
  let dest := if src.Age ≠ "" then { dest with Age := src.Age } else dest
  let dest := if src.Contact ≠ "" then { dest with Contact := src.Contact } else dest
  let dest := if src.Company ≠ "" then { dest with Company := src.Company } else dest
  let dest := if src.Address ≠ Address.zero then { dest with Address := src.Address } else dest
  dest

/-- What a handler answers with. -/
inductive Payload where
  | message (text : String)
  | records (users : List User)
  | record (user : User)
  | done (status name : String)
  deriving DecidableEq, Repr

/-- The result of a handler: a response with its status, or the run-time panic
of a method call on a nil `error`. -/
inductive Outcome where
  | response (status : Nat) (payload : Payload)
  | nilPanic
  deriving DecidableEq, Repr

/-- The status of a response. -/
def Outcome.status : Outcome → Option Nat
  | .response s _ => some s
  | .nilPanic => none

/-- The package variable `db` of `routes`, the driver that `Connect` returned,
and the JSON coding of `User` values.  `Connect` returns a driver only together
with a nil error, so the package variable `err` is nil in every such state. -/
structure Env where
  db : Driver
  marshal : User → Option String
  unmarshal : String → Option User

/-- The request as the handlers see it: the path parameters and the body. -/
structure Request where
  collection : String
  resource : String
  body : String
  deriving DecidableEq, Repr

/-- The expression `err.Error()` on the package variable `err` inside a
response: `err` is nil, and the method call on the nil `error` panics before
the response is built. -/
def errText : Outcome :=
  Outcome.nilPanic

/-- The loop of `GetAll`: records that do not decode are skipped. -/
def decodeAll (unmarshal : String → Option User) : List String → List User
  | [] => []
  | value :: rest =>
    match unmarshal value with
    | none => decodeAll unmarshal rest
    | some record => record :: decodeAll unmarshal rest

/-- The handler `GetAll`. -/
def GetAll (env : Env) (fs : FS) (req : Request) : FS × Outcome :=
  if req.collection = "" then
    (fs, .response 400 (.message "Collection parameter is required"))
  else
    match ReadAll env.db fs req.collection with
    | .error _ => (fs, .response 500 (.message "error"))
    | .ok records => (fs, .response 200 (.records (decodeAll env.unmarshal records)))

/-- The handler `GetOne`. -/
def GetOne (env : Env) (fs : FS) (req : Request) : FS × Outcome :=
  if req.collection = "" ∨ req.resource = "" then
    (fs, .response 400 (.message "Missing collection or resource"))
  else
    match Read env.unmarshal env.db fs req.collection req.resource with
    | .error _ => (fs, .response 500 (.message "error"))
    | .ok newUser => (fs, .response 200 (.record newUser))

/-- The handler `CreateOne`. -/
def CreateOne (env : Env) (fs : FS) (req : Request) : FS × Outcome :=
  if req.collection = "" then
    (fs, .response 400 (.message "Missing collection name"))
  else
    match env.unmarshal req.body with
    | none => (fs, .response 500 (.message "Error while unmarshaling data"))
    | some employeeRecord =>
      match Write env.marshal env.db fs req.collection employeeRecord.Name
          { Name := employeeRecord.Name, Contact := employeeRecord.Contact,
            Company := employeeRecord.Company, Age := employeeRecord.Age,
            Address := employeeRecord.Address } with
      | (fs1, some _) => (fs1, .response 500 (.message "Error while writing data in DBVault"))
      | (fs1, none) => (fs1, .response 200 (.done "created" employeeRecord.Name))

/-- The handler `UpdateOne`. -/
def UpdateOne (env : Env) (fs : FS) (req : Request) : FS × Outcome :=
  if req.collection = "" ∨ req.resource = "" then (fs, errText)
  else
    match env.unmarshal req.body with
    | none => (fs, .response 500 (.message "Error while unmarshaling data"))
    | some newEmployee =>
      match Read env.unmarshal env.db fs req.collection req.resource with
      | .error _ => (fs, .response 500 (.message "Error while reading data from DBVault"))
      | .ok oldEmployee =>
        let deleted :=
          if newEmployee.Name ≠ "" ∧ newEmployee.Name ≠ oldEmployee.Name then
            Delete env.db fs req.collection oldEmployee.Name
          else (fs, none)
        match deleted with
        | (fs1, some _) => (fs1, .response 500 (.message "Unable to update the records"))
        | (fs1, none) =>
          let oldEmployee := copyNonEmptyFields newEmployee oldEmployee
          match Write env.marshal env.db fs1 req.collection oldEmployee.Name
              { Name := oldEmployee.Name, Contact := oldEmployee.Contact,
                Company := oldEmployee.Company, Age := oldEmployee.Age,
                Address := oldEmployee.Address } with
          | (fs2, some _) =>
            (fs2, .response 500 (.message "Error while updating data in DBVault"))
          | (fs2, none) => (fs2, .response 200 (.done "updated" oldEmployee.Name))

/-- The handler `DeleteAll`. -/
def DeleteAll (env : Env) (fs : FS) (req : Request) : FS × Outcome :=
  if req.collection = "" then (fs, errText)
  else
    match Delete env.db fs req.collection "" with
    | (fs1, some _) => (fs1, .response 500 (.message "Unable to delete the records"))
    | (fs1, none) => (fs1, .response 200 (.done "deleted" req.collection))

/-- The handler `DeleteOne`. -/
def DeleteOne (env : Env) (fs : FS) (req : Request) : FS × Outcome :=
  if req.collection = "" ∨ req.resource = "" then (fs, errText)
  else
    match Delete env.db fs req.collection req.resource with
    | (fs1, some _) => (fs1, .response 500 (.message "Unable to delete the record"))
    | (fs1, none) => (fs1, .response 200 (.done "deleted" req.resource))

/-! ## Predicates of the statements -/

/-- A name that is a single path segment: not empty, without a slash, and
neither `.` nor `..`. -/
def segment (s : String) : Prop :=
  s.data ≠ [] ∧ '/' ∉ s.data ∧ s.data ≠ ['.'] ∧ s.data ≠ ['.', '.']

instance (s : String) : Decidable (segment s) := by
  unfold segment
  infer_instance

/-- A store in which every entry lies in a directory. -/
def FS.WF (fs : FS) : Prop :=
  ∀ e ∈ fs, fs.lookup e.1.dropLast = some Node.dir

instance (fs : FS) : Decidable (FS.WF fs) := by
  unfold FS.WF
  infer_instance


/-! ## Notions of the proofs -/

/-- A component that `Clean` can keep. -/
def properSeg (w : List Char) : Prop :=
  w ≠ [] ∧ w ≠ ['.'] ∧ '/' ∉ w

/-- The stacks that the scan of `Clean` can reach. -/
def goodStack (rooted : Bool) : List (List Char) → Prop
  | [] => True
  | x :: s =>
    properSeg x ∧
    (x = ['.', '.'] → rooted = false ∧ (s = [] ∨ s.head? = some ['.', '.'])) ∧
    goodStack rooted s

/-! ## Sample values -/

/-- A sample coding, used at concrete inputs: the JSON text of a string
without special characters is the string between double quotes. -/
def quote (s : String) : Option String :=
  some ("\"" ++ s ++ "\"")

/-- The decoding that goes with `quote`: the text between the first character
and the last two, the closing quote and the newline. -/
def unquote (b : String) : Option String :=
  some (String.mk ((b.data.drop 1).dropLast.dropLast))

/-- The driver that `Connect` returns. -/
def here : Driver := { dir := "." }

/-- A driver with the base directory `db`. -/
def dbDriver : Driver := { dir := "db" }

/-- A sample coding of users, used at concrete inputs: the name and the age
with a slash between them. -/
def sampleMarshal (u : User) : Option String :=
  some (u.Name ++ "/" ++ u.Age)

/-- The decoding that goes with `sampleMarshal`; newlines are skipped. -/
def sampleUnmarshal (s : String) : Option User :=
  match splitSlash (s.data.filter (fun c => decide (c ≠ '\n'))) with
  | [n, a] => some { User.zero with Name := String.mk n, Age := String.mk a }
  | _ => none

/-- The package variables after `Connect`, with the sample coding. -/
def sampleEnv : Env :=
  { db := here, marshal := sampleMarshal, unmarshal := sampleUnmarshal }

/-! ## Facts about paths -/

theorem splitSlash_ne_nil (x : List Char) : splitSlash x ≠ [] := by
  cases x with
  | nil => simp [splitSlash]
  | cons c cs =>
    unfold splitSlash
    split
    · simp
    · split <;> simp

theorem splitSlash_append (a b : List Char) :
    splitSlash (a ++ '/' :: b) = splitSlash a ++ splitSlash b := by
  induction a with
  | nil => simp [splitSlash]
  | cons c cs ih =>
    by_cases hc : c = '/'
    · simp [splitSlash, hc, ih]
    · have h1 : splitSlash (c :: (cs ++ '/' :: b))
          = match splitSlash (cs ++ '/' :: b) with
            | [] => [[c]]
            | w :: ws => (c :: w) :: ws := by
        rw [splitSlash]; simp [hc]
      have h2 : splitSlash (c :: cs)
          = match splitSlash cs with
            | [] => [[c]]
            | w :: ws => (c :: w) :: ws := by
        rw [splitSlash]; simp [hc]
      rw [List.cons_append, h1, h2, ih]
      cases h : splitSlash cs with
      | nil => exact absurd h (splitSlash_ne_nil cs)
      | cons w ws => simp

theorem splitSlash_noSlash (w : List Char) (h : '/' ∉ w) : splitSlash w = [w] := by
  induction w with
  | nil => simp [splitSlash]
  | cons c cs ih =>
    have hc : c ≠ '/' := fun e => h (by simp [e])
    have hcs : '/' ∉ cs := fun e => h (by simp [e])
    rw [splitSlash]; simp [hc, ih hcs]

theorem splitSlash_mem_noSlash (x : List Char) : ∀ w ∈ splitSlash x, '/' ∉ w := by
  induction x with
  | nil => simp [splitSlash]
  | cons c cs ih =>
    intro w hw
    by_cases hc : c = '/'
    · rw [splitSlash] at hw
      simp [hc] at hw
      rcases hw with rfl | hw
      · simp
      · exact ih w hw
    · rw [splitSlash] at hw
      simp only [hc, if_false] at hw
      cases h : splitSlash cs with
      | nil => exact absurd h (splitSlash_ne_nil cs)
      | cons v vs =>
        rw [h] at hw ih
        simp at hw
        rcases hw with rfl | hw
        · have := ih v (by simp)
          simp [this]
          exact fun e => hc e.symm
        · exact ih w (by simp [hw])

theorem splitSlash_joinSlash (comps : List (List Char)) (hne : comps ≠ [])
    (h : ∀ w ∈ comps, '/' ∉ w) : splitSlash (joinSlash comps) = comps := by
  induction comps with
  | nil => exact absurd rfl hne
  | cons a rest ih =>
    cases rest with
    | nil => simpa [joinSlash] using splitSlash_noSlash a (h a (by simp))
    | cons b rest =>
      rw [joinSlash, splitSlash_append, ih (by simp) (fun w hw => h w (by simp [hw])),
        splitSlash_noSlash a (h a (by simp))]
      rfl

theorem cleanStep_push (r : Bool) (s : List (List Char)) (n : List Char)
    (h1 : n ≠ []) (h2 : n ≠ ['.']) (h3 : n ≠ ['.', '.']) : cleanStep r s n = n :: s := by
  simp [cleanStep, h1, h2, h3]

theorem cleanStep_skip (r : Bool) (s : List (List Char)) (n : List Char)
    (h : n = [] ∨ n = ['.']) : cleanStep r s n = s := by
  simp [cleanStep, h]

theorem goodStack_tail {r : Bool} {x : List Char} {s : List (List Char)}
    (h : goodStack r (x :: s)) : goodStack r s := h.2.2

theorem cleanStep_good (r : Bool) (s : List (List Char)) (seg : List Char)
    (hs : goodStack r s) (hseg : '/' ∉ seg) : goodStack r (cleanStep r s seg) := by
  by_cases h0 : seg = [] ∨ seg = ['.']
  · rw [cleanStep_skip r s seg h0]; exact hs
  · have h1 : seg ≠ [] := fun e => h0 (Or.inl e)
    have h2 : seg ≠ ['.'] := fun e => h0 (Or.inr e)
    by_cases h3 : seg = ['.', '.']
    · subst h3
      cases s with
      | nil =>
        cases r <;> simp [cleanStep, goodStack, properSeg]
      | cons top rest =>
        by_cases ht : r = false ∧ top = ['.', '.']
        · have : cleanStep r (top :: rest) ['.', '.'] = ['.', '.'] :: top :: rest := by
            simp [cleanStep, ht]
          rw [this]
          refine ⟨⟨by simp, by simp, by simp⟩, fun _ => ⟨ht.1, Or.inr (by simp [ht.2])⟩, hs⟩
        · have : cleanStep r (top :: rest) ['.', '.'] = rest := by
            simp only [cleanStep]
            simp [ht]
          rw [this]; exact goodStack_tail hs
    · rw [cleanStep_push r s seg h1 h2 h3]
      exact ⟨⟨h1, h2, hseg⟩, fun e => absurd e h3, hs⟩

theorem foldl_good (r : Bool) (segs : List (List Char)) :
    ∀ s, goodStack r s → (∀ w ∈ segs, '/' ∉ w) →
      goodStack r (segs.foldl (cleanStep r) s) := by
  induction segs with
  | nil => intro s hs _; exact hs
  | cons a rest ih =>
    intro s hs h
    rw [List.foldl_cons]
    exact ih _ (cleanStep_good r s a hs (h a (by simp))) (fun w hw => h w (by simp [hw]))

theorem goodStack_proper {r : Bool} {s : List (List Char)} (h : goodStack r s) :
    ∀ w ∈ s, properSeg w := by
  induction s with
  | nil => simp
  | cons x s ih =>
    intro w hw
    simp at hw
    rcases hw with rfl | hw
    · exact h.1
    · exact ih h.2.2 w hw

theorem cleanStep_replay (r : Bool) (x : List Char) (s : List (List Char))
    (h : goodStack r (x :: s)) : cleanStep r s x = x :: s := by
  obtain ⟨⟨h1, h2, _⟩, hdd, _⟩ := h
  by_cases h3 : x = ['.', '.']
  · subst h3
    obtain ⟨hr, hs⟩ := hdd rfl
    subst hr
    cases s with
    | nil => simp [cleanStep]
    | cons top rest =>
      rcases hs with hs | hs
      · simp at hs
      · simp at hs
        subst hs
        simp [cleanStep]
  · exact cleanStep_push r s x h1 h2 h3

theorem foldl_replay (r : Bool) (s : List (List Char)) (h : goodStack r s) :
    s.reverse.foldl (cleanStep r) [] = s := by
  induction s with
  | nil => rfl
  | cons x s ih =>
    rw [List.reverse_cons, List.foldl_append, ih (goodStack_tail h)]
    simpa using cleanStep_replay r x s h

theorem filter_proper (comps : List (List Char)) (h : ∀ w ∈ comps, properSeg w) :
    comps.filter (fun s => decide (s ≠ [] ∧ s ≠ ['.'])) = comps := by
  rw [List.filter_eq_self]
  intro w hw
  have := h w hw
  simp [this.1, this.2.1]

theorem filter_render (r : Bool) (comps : List (List Char)) (h : ∀ w ∈ comps, properSeg w) :
    (splitSlash (render r comps)).filter (fun s => decide (s ≠ [] ∧ s ≠ ['.'])) = comps := by
  have hs : ∀ w ∈ comps, '/' ∉ w := fun w hw => (h w hw).2.2
  by_cases hne : comps = []
  · subst hne
    cases r <;> simp [render, joinSlash, splitSlash]
  · cases r with
    | false =>
      simp only [render, hne, if_false, Bool.false_eq_true]
      rw [splitSlash_joinSlash comps hne hs]
      exact filter_proper comps h
    | true =>
      simp only [render, if_true]
      have : '/' :: joinSlash comps = [] ++ '/' :: joinSlash comps := rfl
      rw [this, splitSlash_append, splitSlash_joinSlash comps hne hs]
      simp [splitSlash]
      exact fun w hw => ⟨(h w hw).1, (h w hw).2.1⟩

theorem osKey_render (r : Bool) (comps : List (List Char)) (h : ∀ w ∈ comps, properSeg w) :
    osKey (String.mk (render r comps)) = comps.map String.mk := by
  simp only [osKey]
  rw [filter_render r comps h]

theorem foldl_render (r : Bool) (comps : List (List Char)) (h : ∀ w ∈ comps, '/' ∉ w)
    (s : List (List Char)) :
    (splitSlash (render r comps)).foldl (cleanStep r) s = comps.foldl (cleanStep r) s := by
  by_cases hne : comps = []
  · subst hne
    cases r <;> simp [render, joinSlash, splitSlash, cleanStep]
  · cases r with
    | false =>
      simp only [render, hne, if_false, Bool.false_eq_true]
      rw [splitSlash_joinSlash comps hne h]
    | true =>
      simp only [render, if_true]
      have : '/' :: joinSlash comps = [] ++ '/' :: joinSlash comps := rfl
      rw [this, splitSlash_append, splitSlash_joinSlash comps hne h]
      simp [splitSlash, cleanStep]

theorem joinSlash_head (a : List Char) (rest : List (List Char)) :
    ∃ t, joinSlash (a :: rest) = a ++ t := by
  cases rest with
  | nil => exact ⟨[], by simp [joinSlash]⟩
  | cons b rest => exact ⟨'/' :: joinSlash (b :: rest), by simp [joinSlash]⟩

theorem isRooted_render (r : Bool) (comps : List (List Char)) (h : ∀ w ∈ comps, properSeg w) :
    isRooted (render r comps) = r := by
  cases r with
  | true => simp [render, isRooted]
  | false =>
    cases comps with
    | nil => simp [render, isRooted]
    | cons a rest =>
      obtain ⟨t, ht⟩ := joinSlash_head a rest
      have ha := h a (by simp)
      simp only [render, Bool.false_eq_true, if_false, ht]
      cases a with
      | nil => exact absurd rfl ha.1
      | cons c cs =>
        have : c ≠ '/' := fun e => ha.2.2 (by simp [e])
        simp [isRooted, this]

theorem render_ne_nil (r : Bool) (comps : List (List Char)) (h : ∀ w ∈ comps, properSeg w) :
    render r comps ≠ [] := by
  cases r with
  | true => simp [render]
  | false =>
    cases comps with
    | nil => simp [render]
    | cons a rest =>
      obtain ⟨t, ht⟩ := joinSlash_head a rest
      have ha := h a (by simp)
      simp only [render, Bool.false_eq_true, if_false, ht]
      cases a with
      | nil => exact absurd rfl ha.1
      | cons c cs => simp

theorem joinSlash_snoc_append (comps : List (List Char)) (n t : List Char) :
    joinSlash (comps ++ [n]) ++ t = joinSlash (comps ++ [n ++ t]) := by
  induction comps with
  | nil => simp [joinSlash]
  | cons a rest ih =>
    cases rest with
    | nil => simp [joinSlash]
    | cons b rest =>
      have e1 : (a :: b :: rest) ++ [n] = a :: b :: (rest ++ [n]) := rfl
      have e2 : (a :: b :: rest) ++ [n ++ t] = a :: b :: (rest ++ [n ++ t]) := rfl
      have e3 : (b :: rest) ++ [n] = b :: (rest ++ [n]) := rfl
      have e4 : (b :: rest) ++ [n ++ t] = b :: (rest ++ [n ++ t]) := rfl
      rw [e1, e2, joinSlash, joinSlash, ← e3, ← e4, ← ih]
      simp

theorem render_snoc_append (r : Bool) (comps : List (List Char)) (n t : List Char) :
    render r (comps ++ [n]) ++ t = render r (comps ++ [n ++ t]) := by
  cases r with
  | true => simp [render, joinSlash_snoc_append]
  | false => simp [render, joinSlash_snoc_append]

theorem Clean_mk (x : List Char) (hx : x ≠ []) :
    Clean (String.mk x) = String.mk (render (isRooted x) (cleanComps (isRooted x) x)) := by
  simp [Clean, hx]

theorem cleanComps_good (r : Bool) (x : List Char) : goodStack r (cleanComps r x).reverse := by
  unfold cleanComps
  rw [List.reverse_reverse]
  exact foldl_good r _ [] trivial (splitSlash_mem_noSlash x)

theorem isRooted_append (x y : List Char) (hx : x ≠ []) : isRooted (x ++ y) = isRooted x := by
  cases x with
  | nil => exact absurd rfl hx
  | cons c cs => rfl

theorem cleanComps_join (r : Bool) (x n : List Char)
    (h1 : n ≠ []) (h2 : '/' ∉ n) (h3 : n ≠ ['.']) (h4 : n ≠ ['.', '.']) :
    cleanComps r (x ++ '/' :: n) = cleanComps r x ++ [n] := by
  unfold cleanComps
  rw [splitSlash_append, splitSlash_noSlash n h2, List.foldl_append]
  simp [cleanStep_push r _ n h1 h3 h4]

theorem cleanComps_render (r : Bool) (st : List (List Char)) (h : goodStack r st.reverse) :
    cleanComps r (render r st) = st := by
  have hp : ∀ w ∈ st, '/' ∉ w := fun w hw =>
    (goodStack_proper h w (by simpa using hw)).2.2
  unfold cleanComps
  rw [foldl_render r st hp []]
  have := foldl_replay r st.reverse h
  rw [List.reverse_reverse] at this
  rw [this, List.reverse_reverse]

theorem Clean_join (x n : List Char) (hx : x ≠ [])
    (h1 : n ≠ []) (h2 : '/' ∉ n) (h3 : n ≠ ['.']) (h4 : n ≠ ['.', '.']) :
    Clean (String.mk (x ++ '/' :: n))
      = String.mk (render (isRooted x) (cleanComps (isRooted x) x ++ [n])) := by
  rw [Clean_mk _ (by simp), isRooted_append x _ hx, cleanComps_join _ x n h1 h2 h3 h4]

theorem Clean_render_join (r : Bool) (st : List (List Char)) (h : goodStack r st.reverse)
    (n : List Char) (h1 : n ≠ []) (h2 : '/' ∉ n) (h3 : n ≠ ['.']) (h4 : n ≠ ['.', '.']) :
    Clean (String.mk (render r st ++ '/' :: n)) = String.mk (render r (st ++ [n])) := by
  have hp : ∀ w ∈ st, properSeg w := fun w hw => goodStack_proper h w (by simpa using hw)
  rw [Clean_join _ n (render_ne_nil r st hp) h1 h2 h3 h4, isRooted_render r st hp,
    cleanComps_render r st h]

theorem Join_two (a b : String) (ha : a.data ≠ []) :
    Join [a, b] = Clean (String.mk (a.data ++ '/' :: b.data)) := by
  simp [Join, joinElems, ha]

theorem Join_three (a b c : String) (ha : a.data ≠ []) :
    Join [a, b, c] = Clean (String.mk ((a.data ++ '/' :: b.data) ++ '/' :: c.data)) := by
  simp [Join, joinElems, ha]

theorem Join_nil_two (a b : String) (ha : a.data = []) (hb : b.data ≠ []) :
    Join [a, b] = Clean (String.mk b.data) := by
  simp [Join, joinElems, ha, hb]

theorem Join_nil_three (a b c : String) (ha : a.data = []) (hb : b.data ≠ []) :
    Join [a, b, c] = Clean (String.mk (b.data ++ '/' :: c.data)) := by
  simp [Join, joinElems, ha, hb]

/-- The paths of a collection: the collection directory is a rendered list of
proper components, and a single segment joined to it is appended to that list,
whether it is joined to the directory or together with its parts. -/
theorem join_paths (base c : String) (hc : c.data ≠ []) :
    ∃ (r : Bool) (st : List (List Char)), goodStack r st.reverse ∧
      Join [base, c] = String.mk (render r st) ∧
      ∀ n : String, segment n →
        Join [base, c, n] = String.mk (render r (st ++ [n.data])) ∧
        Join [Join [base, c], n] = String.mk (render r (st ++ [n.data])) := by
  have key : ∀ x : List Char, x ≠ [] → Join [base, c] = Clean (String.mk x) →
      (∀ n : String, Join [base, c, n] = Clean (String.mk (x ++ '/' :: n.data))) →
      ∃ (r : Bool) (st : List (List Char)), goodStack r st.reverse ∧
        Join [base, c] = String.mk (render r st) ∧
        ∀ n : String, segment n →
          Join [base, c, n] = String.mk (render r (st ++ [n.data])) ∧
          Join [Join [base, c], n] = String.mk (render r (st ++ [n.data])) := by
    intro x hx e2 e3
    refine ⟨isRooted x, cleanComps (isRooted x) x, cleanComps_good _ x, ?_, ?_⟩
    · rw [e2, Clean_mk x hx]
    · intro n hn
      obtain ⟨h1, h2, h3, h4⟩ := hn
      constructor
      · rw [e3 n, Clean_join x n.data hx h1 h2 h3 h4]
      · have hp : ∀ w ∈ cleanComps (isRooted x) x, properSeg w := fun w hw =>
          goodStack_proper (cleanComps_good _ x) w (by simpa using hw)
        rw [e2, Clean_mk x hx,
          Join_two (String.mk (render (isRooted x) (cleanComps (isRooted x) x))) n
            (render_ne_nil _ _ hp)]
        exact Clean_render_join _ _ (cleanComps_good _ x) n.data h1 h2 h3 h4
  by_cases hb : base.data = []
  · exact key c.data hc (Join_nil_two base c hb hc) (fun n => Join_nil_three base c n hb hc)
  · exact key (base.data ++ '/' :: c.data) (by simp) (Join_two base c hb)
      (fun n => Join_three base c n hb)

/-! ### The table -/

theorem find_remove (fs : FS) (p q : List String) :
    FS.find (FS.remove fs p) q = if q = p then none else FS.find fs q := by
  induction fs with
  | nil => simp [FS.remove, FS.find]
  | cons e rest ih =>
    obtain ⟨k, n⟩ := e
    simp only [FS.remove] at ih ⊢
    by_cases hk : k = p
    · subst hk
      rw [List.filter_cons_of_neg (by simp), ih]
      by_cases hq : q = k
      · simp [hq]
      · have : ¬ k = q := fun e => hq e.symm
        simp [hq, FS.find, this]
    · rw [List.filter_cons_of_pos (by simpa using hk)]
      simp only [FS.find]
      by_cases hkq : k = q
      · subst hkq
        simp [hk]
      · rw [if_neg hkq, if_neg hkq]
        exact ih

theorem lookup_remove (fs : FS) (p q : List String) (hq : q ≠ p) :
    FS.lookup (FS.remove fs p) q = FS.lookup fs q := by
  simp [FS.lookup, find_remove, hq]

theorem lookup_remove_self (fs : FS) (p : List String) (hp : p ≠ []) :
    FS.lookup (FS.remove fs p) p = none := by
  simp [FS.lookup, find_remove, hp]

theorem lookup_set (fs : FS) (p q : List String) (n : Node) (hq : q ≠ p) :
    FS.lookup (FS.set fs p n) q = FS.lookup fs q := by
  have : ¬ p = q := fun e => hq e.symm
  simp [FS.lookup, FS.set, FS.find, this, find_remove, hq]

theorem lookup_set_self (fs : FS) (p : List String) (n : Node) (hp : p ≠ []) :
    FS.lookup (FS.set fs p n) p = some n := by
  simp [FS.lookup, FS.set, FS.find, hp]

theorem mem_remove {fs : FS} {p : List String} {e : List String × Node}
    (h : e ∈ FS.remove fs p) : e ∈ fs ∧ e.1 ≠ p := by
  simpa [FS.remove] using h

theorem mem_set {fs : FS} {p : List String} {n : Node} {e : List String × Node}
    (h : e ∈ FS.set fs p n) : e = (p, n) ∨ (e ∈ fs ∧ e.1 ≠ p) := by
  simp only [FS.set, List.mem_cons] at h
  rcases h with h | h
  · exact Or.inl h
  · exact Or.inr (mem_remove h)

theorem find_some_mem (fs : FS) (q : List String) (n : Node) (h : FS.find fs q = some n) :
    (q, n) ∈ fs := by
  induction fs with
  | nil => simp [FS.find] at h
  | cons e rest ih =>
    obtain ⟨k, m⟩ := e
    simp only [FS.find] at h
    by_cases hk : k = q
    · simp [hk] at h
      simp [hk, h]
    · simp [hk] at h
      exact List.mem_cons_of_mem _ (ih h)

/-! ### `os.MkdirAll` -/

theorem mkdirs_lookup (todo : List String) : ∀ (fs : FS) (done q : List String),
    q.length ≤ done.length ∨ done.length + todo.length < q.length →
    FS.lookup (mkdirs fs done todo).1 q = FS.lookup fs q := by
  induction todo with
  | nil => intro fs done q _; rfl
  | cons x rest ih =>
    intro fs done q hq
    have hlen : (done ++ [x]).length = done.length + 1 := by simp
    have hq2 : q.length ≤ (done ++ [x]).length ∨ (done ++ [x]).length + rest.length < q.length := by
      rw [hlen]
      simp only [List.length_cons] at hq
      omega
    have hne : q ≠ done ++ [x] := by
      intro e
      rw [e, hlen] at hq
      simp only [List.length_cons] at hq
      omega
    simp only [mkdirs]
    split
    · exact ih fs _ q hq2
    · rfl
    · rw [ih _ _ q hq2, lookup_set _ _ _ _ hne]

theorem mkdirs_dirs (todo : List String) : ∀ (fs fs1 : FS) (done : List String),
    FS.lookup fs done = some Node.dir → mkdirs fs done todo = (fs1, none) →
    ∀ k, FS.lookup fs1 (done ++ todo.take k) = some Node.dir := by
  induction todo with
  | nil =>
    intro fs fs1 done hd h k
    simp only [mkdirs, Prod.mk.injEq, and_true] at h
    subst h
    simpa using hd
  | cons x rest ih =>
    intro fs fs1 done hd h k
    have hshort : FS.lookup (mkdirs fs (done ++ [x]) rest).1 done = FS.lookup fs done :=
      mkdirs_lookup rest fs (done ++ [x]) done (Or.inl (by simp))
    have hne : done ≠ done ++ [x] := by
      intro e
      have := congrArg List.length e
      simp at this
    simp only [mkdirs] at h
    split at h
    · next hl =>
      cases k with
      | zero =>
        have := congrArg Prod.fst h
        simp only at this
        rw [← this]
        simpa [hd] using hshort
      | succ k =>
        have := ih fs fs1 (done ++ [x]) hl h k
        simpa using this
    · simp at h
    · next hl =>
      have hset : FS.lookup (FS.set fs (done ++ [x]) Node.dir) (done ++ [x]) = some Node.dir :=
        lookup_set_self _ _ _ (by simp)
      cases k with
      | zero =>
        have h1 := mkdirs_lookup rest (FS.set fs (done ++ [x]) Node.dir) (done ++ [x]) done
          (Or.inl (by simp))
        rw [h] at h1
        simp only at h1
        rw [lookup_set _ _ _ _ hne] at h1
        simpa [hd] using h1
      | succ k =>
        have := ih _ fs1 (done ++ [x]) hset h k
        simpa using this

theorem mkdirs_nofile (todo : List String) : ∀ (fs fs1 : FS) (done : List String),
    (∀ c, FS.lookup fs done ≠ some (Node.file c)) → mkdirs fs done todo = (fs1, none) →
    ∀ k c, FS.lookup fs (done ++ todo.take k) ≠ some (Node.file c) := by
  induction todo with
  | nil =>
    intro fs fs1 done hd _ k c
    simpa using hd c
  | cons x rest ih =>
    intro fs fs1 done hd h k c
    simp only [mkdirs] at h
    cases k with
    | zero => simpa using hd c
    | succ k =>
      have e : done ++ (x :: rest).take (k + 1) = (done ++ [x]) ++ rest.take k := by simp
      rw [e]
      split at h
      · next hl =>
        exact ih fs fs1 (done ++ [x]) (by simp [hl]) h k c
      · simp at h
      · next hl =>
        have hset : FS.lookup (FS.set fs (done ++ [x]) Node.dir) (done ++ [x]) = some Node.dir :=
          lookup_set_self _ _ _ (by simp)
        have := ih _ fs1 (done ++ [x]) (by simp [hset]) h k c
        by_cases hk : (done ++ [x]) ++ rest.take k = done ++ [x]
        · rw [hk, hl]; simp
        · rwa [lookup_set _ _ _ _ hk] at this

theorem mkdirs_mem (todo : List String) : ∀ (fs : FS) (done : List String)
    (e : List String × Node), e ∈ (mkdirs fs done todo).1 →
    e ∈ fs ∨ e.1.length ≤ done.length + todo.length := by
  induction todo with
  | nil => intro fs done e h; exact Or.inl h
  | cons x rest ih =>
    intro fs done e h
    simp only [mkdirs] at h
    have hlen : (done ++ [x]).length + rest.length = done.length + (x :: rest).length := by
      simp; omega
    split at h
    · rcases ih fs _ e h with h1 | h1
      · exact Or.inl h1
      · exact Or.inr (by omega)
    · exact Or.inl h
    · rcases ih _ _ e h with h1 | h1
      · rcases mem_set h1 with h2 | h2
        · right
          rw [h2]
          simp
        · exact Or.inl h2.1
      · exact Or.inr (by omega)

/-! ### The paths of a record -/

theorem data_ne_nil {s : String} (h : s ≠ "") : s.data ≠ [] := by
  intro e
  apply h
  exact String.ext e

theorem map_spaces_eq_dots (l : List Char) :
    (l.map (fun c => if c = ' ' then '_' else c) = ['.'] → l = ['.']) ∧
    (l.map (fun c => if c = ' ' then '_' else c) = ['.', '.'] → l = ['.', '.']) := by
  have hd : ∀ c : Char, (if c = ' ' then '_' else c) = '.' → c = '.' := by
    intro c
    split
    · intro e; exact absurd e (by decide)
    · exact id
  constructor
  · intro e
    cases l with
    | nil => simp at e
    | cons x xs =>
      cases xs with
      | nil =>
        simp only [List.map_cons, List.map_nil, List.cons.injEq, and_true] at e
        rw [hd x e]
      | cons y ys => simp at e
  · intro e
    cases l with
    | nil => simp at e
    | cons x xs =>
      cases xs with
      | nil => simp at e
      | cons y ys =>
        cases ys with
        | nil =>
          simp only [List.map_cons, List.map_nil, List.cons.injEq, and_true] at e
          rw [hd x e.1, hd y e.2]
        | cons z zs => simp at e

theorem segment_replaceSpaces {r : String} (h : segment r) : segment (replaceSpaces r) := by
  obtain ⟨h1, h2, h3, h4⟩ := h
  have hf : ∀ c : Char, (if c = ' ' then '_' else c) = '/' → c = '/' := by
    intro c
    split
    · intro e; exact absurd e (by decide)
    · exact id
  refine ⟨?_, ?_, ?_, ?_⟩
  · simpa [replaceSpaces] using h1
  · simp only [replaceSpaces, List.mem_map, not_exists, not_and]
    intro c hc e
    exact h2 (hf c e ▸ hc)
  · exact fun e => h3 ((map_spaces_eq_dots r.data).1 e)
  · exact fun e => h4 ((map_spaces_eq_dots r.data).2 e)

theorem segment_append {n : String} (h : '/' ∉ n.data) (t : String)
    (ht1 : '/' ∉ t.data) (ht2 : 3 ≤ t.data.length) : segment (n ++ t) := by
  have hlen : ∀ l : List Char, (n ++ t).data = l → 3 ≤ l.length := by
    intro l e
    rw [← e, String.data_append, List.length_append]
    omega
  refine ⟨?_, ?_, ?_, ?_⟩
  · intro e
    have := hlen _ e
    simp at this
  · simp [h, ht1]
  · intro e
    have := hlen _ e
    simp at this
  · intro e
    have := hlen _ e
    simp at this

theorem segment_proper {n : String} (h : segment n) : properSeg n.data :=
  ⟨h.1, h.2.2.1, h.2.1⟩

theorem osKey_render_snoc (r : Bool) (st : List (List Char)) (h : goodStack r st.reverse)
    (n : String) (hn : segment n) :
    osKey (String.mk (render r (st ++ [n.data]))) = osKey (String.mk (render r st)) ++ [n] := by
  have hp : ∀ w ∈ st, properSeg w := fun w hw => goodStack_proper h w (by simpa using hw)
  rw [osKey_render r st hp, osKey_render r (st ++ [n.data])]
  · simp
  · intro w hw
    simp at hw
    rcases hw with hw | hw
    · exact hp w hw
    · rw [hw]; exact segment_proper hn

/-- The locations of a record whose name is a single segment: the final file,
the temporary file and the path that `Read` and `Delete` test all lie directly
in the collection directory, and `Read` opens the final path of `Write`. -/
theorem layout (d : Driver) (c r : String) (hc : c ≠ "") (hr : segment r) :
    osKey (finalPath d c r) = osKey (Join [d.dir, c]) ++ [replaceSpaces r ++ ".json"] ∧
    osKey (tmpPath d c r)
      = osKey (Join [d.dir, c]) ++ [replaceSpaces r ++ ".json" ++ ".tmp"] ∧
    osKey (Join [d.dir, c, replaceSpaces r]) = osKey (Join [d.dir, c]) ++ [replaceSpaces r] ∧
    Join [d.dir, c, replaceSpaces r] ++ ".json" = finalPath d c r := by
  obtain ⟨rt, st, hgood, hD, hn⟩ := join_paths d.dir c (data_ne_nil hc)
  have hr1 := segment_replaceSpaces hr
  have hj : segment (replaceSpaces r ++ ".json") :=
    segment_append hr1.2.1 ".json" (by decide) (by decide)
  have ht : segment (replaceSpaces r ++ ".json" ++ ".tmp") :=
    segment_append hj.2.1 ".tmp" (by decide) (by decide)
  have hfin : finalPath d c r = String.mk (render rt (st ++ [(replaceSpaces r ++ ".json").data])) :=
    (hn _ hj).2
  have htmp : tmpPath d c r
      = String.mk (render rt (st ++ [(replaceSpaces r ++ ".json" ++ ".tmp").data])) := by
    simp only [tmpPath]
    rw [hfin]
    apply String.ext
    simp only [String.data_append]
    rw [render_snoc_append]
  refine ⟨?_, ?_, ?_, ?_⟩
  · rw [hfin, hD]; exact osKey_render_snoc rt st hgood _ hj
  · rw [htmp, hD]; exact osKey_render_snoc rt st hgood _ ht
  · rw [(hn _ hr1).1, hD]; exact osKey_render_snoc rt st hgood _ hr1
  · rw [hfin, (hn _ hr1).1]
    apply String.ext
    simp only [String.data_append]
    rw [render_snoc_append]

/-! ### The system calls -/

theorem ancestors_take (q a : List String) (h : a ∈ ancestors q) :
    ∃ k, k < q.length ∧ a = q.take k := by
  induction q generalizing a with
  | nil => simp [ancestors] at h
  | cons x rest ih =>
    cases rest with
    | nil =>
      simp [ancestors] at h
      exact ⟨0, by simp, by simp [h]⟩
    | cons y rest =>
      simp only [ancestors, List.mem_cons, List.mem_map] at h
      rcases h with h | ⟨p, hp, rfl⟩
      · exact ⟨0, by simp, by simp [h]⟩
      · obtain ⟨k, hk, e⟩ := ih p hp
        exact ⟨k + 1, by simp at hk ⊢; omega, by simp [e]⟩

theorem fileAbove_false (fs : FS) (q : List String)
    (h : ∀ k, k < q.length → ∀ c, FS.lookup fs (q.take k) ≠ some (Node.file c)) :
    fileAbove fs q = false := by
  simp only [fileAbove, List.any_eq_false]
  intro a ha
  obtain ⟨k, hk, rfl⟩ := ancestors_take q a ha
  have := h k hk
  split
  · next c hc => exact absurd hc (this c)
  · simp

theorem missingError_child (fs : FS) (kD : List String) (x : String)
    (h : ∀ k, FS.lookup fs (kD.take k) = some Node.dir) :
    missingError fs (kD ++ [x]) = Error.notExist := by
  have : fileAbove fs (kD ++ [x]) = false := by
    apply fileAbove_false
    intro k hk c
    have hk2 : k ≤ kD.length := by simp at hk; omega
    rw [List.take_append_of_le_length hk2, h k]
    simp
  simp [missingError, this]

theorem missingError_child_nofile (fs : FS) (kD : List String) (x : String)
    (h : ∀ k c, FS.lookup fs (kD.take k) ≠ some (Node.file c)) :
    missingError fs (kD ++ [x]) = Error.notExist := by
  have : fileAbove fs (kD ++ [x]) = false := by
    apply fileAbove_false
    intro k hk c
    have hk2 : k ≤ kD.length := by simp at hk; omega
    rw [List.take_append_of_le_length hk2]
    exact h k c
  simp [missingError, this]

theorem osWriteFile_ok {fs fs1 : FS} {p b : String} (h : osWriteFile fs p b = (fs1, none)) :
    osKey p ≠ [] ∧ fs1 = FS.set fs (osKey p) (Node.file b) := by
  unfold osWriteFile at h
  simp only at h
  split at h
  · simp at h
  · next hk =>
    split at h
    · simp at h
    · simp at h
    · split at h
      · simp at h
      · simp only [Prod.mk.injEq, and_true] at h
        exact ⟨hk, h.symm⟩

theorem osRename_file_ok {fs fs1 : FS} {o n c : String}
    (hsrc : FS.lookup fs (osKey o) = some (Node.file c))
    (h : osRename fs o n = (fs1, none)) :
    osKey n ≠ [] ∧ fs1 = FS.set (FS.remove fs (osKey o)) (osKey n) (Node.file c) := by
  unfold osRename at h
  simp only at h
  split at h
  · simp at h
  · next hk =>
    rw [hsrc] at h
    simp only at h
    split at h
    · simp at h
    · simp at h
    · split at h
      · simp at h
      · simp only [Prod.mk.injEq, and_true] at h
        exact ⟨fun e => hk (Or.inr e), h.symm⟩

theorem writeTmp_ok {α : Type} {marshal : α → Option String} {d : Driver} {fs fs2 : FS}
    {c r : String} {v : α} (h : writeTmp marshal d fs c r v = (fs2, none)) :
    c ≠ "" ∧ r ≠ "" ∧ ∃ fs1 b, osMkdirAll fs (Join [d.dir, c]) = (fs1, none) ∧
      marshal v = some b ∧ osWriteFile fs1 (tmpPath d c r) (b ++ "\n") = (fs2, none) := by
  unfold writeTmp at h
  split at h
  · simp at h
  · next hc =>
    split at h
    · simp at h
    · next hr =>
      simp only at h
      split at h
      · simp at h
      · next fs1 hmk =>
        split at h
        · simp at h
        · next b hb => exact ⟨hc, hr, fs1, b, hmk, hb, h⟩

theorem Write_ok {α : Type} {marshal : α → Option String} {d : Driver} {fs fs3 : FS}
    {c r : String} {v : α} (h : Write marshal d fs c r v = (fs3, none)) :
    ∃ fs2, writeTmp marshal d fs c r v = (fs2, none) ∧
      osRename fs2 (tmpPath d c r) (finalPath d c r) = (fs3, none) := by
  unfold Write at h
  split at h
  · simp at h
  · next fs2 hw => exact ⟨fs2, hw, h⟩

/-- The file system after a successful `Write`: the directories on the way to the collection exist, and the
final file holds the serialised value; the temporary file is gone. -/
theorem Write_result {α : Type} {marshal : α → Option String} {d : Driver} {fs fs3 : FS}
    {c r : String} {v : α} (h : Write marshal d fs c r v = (fs3, none)) :
    c ≠ "" ∧ r ≠ "" ∧ ∃ fs1 b, mkdirs fs [] (osKey (Join [d.dir, c])) = (fs1, none) ∧
      marshal v = some b ∧
      fs3 = FS.set (FS.remove (FS.set fs1 (osKey (tmpPath d c r)) (Node.file (b ++ "\n")))
              (osKey (tmpPath d c r)))
            (osKey (finalPath d c r)) (Node.file (b ++ "\n")) := by
  obtain ⟨fs2, hw, hren⟩ := Write_ok h
  obtain ⟨hc, hr0, fs1, b, hmk, hb, hwf⟩ := writeTmp_ok hw
  obtain ⟨hk, e2⟩ := osWriteFile_ok hwf
  have hsrc : FS.lookup fs2 (osKey (tmpPath d c r)) = some (Node.file (b ++ "\n")) := by
    rw [e2]; exact lookup_set_self _ _ _ hk
  obtain ⟨_, e3⟩ := osRename_file_ok hsrc hren
  refine ⟨hc, hr0, fs1, b, hmk, hb, ?_⟩
  rw [e3, e2]

theorem segment_ne_empty {r : String} (h : segment r) : r ≠ "" := by
  intro e
  rw [e] at h
  exact h.1 rfl

/-- What `Read` returns for a record whose name is a single segment, when no
regular file stands on the way to the collection directory: the decoded
content of the final file, or the error for a directory or a missing file
there. -/
theorem Read_eq {α : Type} (unmarshal : String → Option α) (d : Driver) (fs : FS)
    (c r : String) (hc : c ≠ "") (hr : segment r)
    (hdirs : ∀ k x, FS.lookup fs ((osKey (Join [d.dir, c])).take k) ≠ some (Node.file x)) :
    Read unmarshal d fs c r =
      match FS.lookup fs (osKey (finalPath d c r)) with
      | some (Node.file content) =>
        (match unmarshal content with
          | none => Except.error Error.decode
          | some v => Except.ok v)
      | some Node.dir => Except.error Error.isDir
      | none => Except.error Error.notExist := by
  obtain ⟨hF, _, hR, hjson⟩ := layout d c r hc hr
  have hmR : missingError fs (osKey (Join [d.dir, c, replaceSpaces r])) = Error.notExist := by
    rw [hR]; exact missingError_child_nofile fs _ _ hdirs
  have hmF : missingError fs (osKey (finalPath d c r)) = Error.notExist := by
    rw [hF]; exact missingError_child_nofile fs _ _ hdirs
  unfold Read
  rw [if_neg hc, if_neg (segment_ne_empty hr)]
  simp only [stat, osStat, osReadFile, hjson, hmR, hmF]
  cases hlR : FS.lookup fs (osKey (Join [d.dir, c, replaceSpaces r])) with
  | some n =>
    cases hlF : FS.lookup fs (osKey (finalPath d c r)) with
    | some m => cases m <;> rfl
    | none => rfl
  | none =>
    cases hlF : FS.lookup fs (osKey (finalPath d c r)) with
    | some m => cases m <;> simp [Error.isNotExist]
    | none => simp [Error.isNotExist]

theorem append_singleton_ne {kD : List String} {x y : String} (h : x ≠ y) :
    kD ++ [x] ≠ kD ++ [y] := by
  intro e
  simp at e
  exact h e

theorem take_ne_snoc (kD : List String) (k : Nat) (x : String) : kD.take k ≠ kD ++ [x] := by
  intro e
  have := congrArg List.length e
  simp at this
  omega

theorem json_ne_tmp (s : String) : s ++ ".json" ++ ".tmp" ≠ s ++ ".json" := by
  intro e
  have := congrArg (fun t : String => t.data.length) e
  simp only [String.data_append, List.length_append, List.length_cons, List.length_nil] at this
  omega

/-- The core of the round trip: after a successful `Write` of a record whose
name is a single segment, `Read` decodes exactly the bytes that were stored. -/
theorem write_read_core {α : Type} (marshal : α → Option String)
    (unmarshal : String → Option α) (d : Driver) (fs fs3 : FS) (c r : String) (v : α)
    (hr : segment r) (h : Write marshal d fs c r v = (fs3, none)) :
    ∃ b, marshal v = some b ∧
      FS.lookup fs3 (osKey (finalPath d c r)) = some (Node.file (b ++ "\n")) ∧
      FS.lookup fs3 (osKey (tmpPath d c r)) = none ∧
      Read unmarshal d fs3 c r =
        match unmarshal (b ++ "\n") with
        | none => Except.error Error.decode
        | some v => Except.ok v := by
  obtain ⟨hc, _, fs1, b, hmk, hb, e3⟩ := Write_result h
  obtain ⟨hF, hT, _, _⟩ := layout d c r hc hr
  have hFne : osKey (finalPath d c r) ≠ [] := by rw [hF]; simp
  have hTne : osKey (tmpPath d c r) ≠ [] := by rw [hT]; simp
  have hTF : osKey (tmpPath d c r) ≠ osKey (finalPath d c r) := by
    rw [hT, hF]; exact append_singleton_ne (json_ne_tmp _)
  have hfile : FS.lookup fs3 (osKey (finalPath d c r)) = some (Node.file (b ++ "\n")) := by
    rw [e3]; exact lookup_set_self _ _ _ hFne
  have htmp : FS.lookup fs3 (osKey (tmpPath d c r)) = none := by
    rw [e3, lookup_set _ _ _ _ hTF]
    exact lookup_remove_self _ _ hTne
  have hdirs : ∀ k x, FS.lookup fs3 ((osKey (Join [d.dir, c])).take k) ≠ some (Node.file x) := by
    intro k x
    have h1 := mkdirs_dirs _ fs fs1 [] (by simp [FS.lookup]) hmk k
    simp only [List.nil_append] at h1
    have n1 : (osKey (Join [d.dir, c])).take k ≠ osKey (finalPath d c r) := by
      rw [hF]; exact take_ne_snoc _ _ _
    have n2 : (osKey (Join [d.dir, c])).take k ≠ osKey (tmpPath d c r) := by
      rw [hT]; exact take_ne_snoc _ _ _
    rw [e3, lookup_set _ _ _ _ n1, lookup_remove _ _ _ n2, lookup_set _ _ _ _ n2, h1]
    simp
  refine ⟨b, hb, hfile, htmp, ?_⟩
  rw [Read_eq unmarshal d fs3 c r hc hr hdirs, hfile]

/-! ## The claims -/

/-- C1, as stated, fails: with the resource name `.` the method `Write` stores
the record under `users/..json` and returns no error, and the `Read` that
follows looks for `users.json` and returns a not-exist error. -/
theorem C1_roundtrip_fails_for_dot :
    (Write quote here [] "users" "." "A").2 = none ∧
    Read unquote here (Write quote here [] "users" "." "A").1 "users" "."
      = Except.error Error.notExist := by
  decide

/-- C1, amended: for every driver, every store, every collection name and every
resource name that is a single path segment, if `Write` returns no error for a
value whose serialisation decodes back to it, then the `Read` that follows
returns that value, and the final file holds exactly the bytes that `Write`
serialised, followed by a newline. -/
theorem C1_write_then_read {α : Type} (marshal : α → Option String)
    (unmarshal : String → Option α) (d : Driver) (fs fs1 : FS) (c r : String) (v : α)
    (hr : segment r)
    (hw : Write marshal d fs c r v = (fs1, none))
    (hcodec : ∀ b, marshal v = some b → unmarshal (b ++ "\n") = some v) :
    Read unmarshal d fs1 c r = Except.ok v ∧
    ∃ b, marshal v = some b ∧ osReadFile fs1 (finalPath d c r) = Except.ok (b ++ "\n") := by
  obtain ⟨b, hb, hfile, _, hread⟩ := write_read_core marshal unmarshal d fs fs1 c r v hr hw
  constructor
  · rw [hread, hcodec b hb]
  · exact ⟨b, hb, by simp [osReadFile, hfile]⟩

/-- C1, amended, at a concrete input. -/
theorem C1_write_then_read_witness :
    Read unquote dbDriver (Write quote dbDriver [] "users" "alice" "A").1 "users" "alice"
        = Except.ok "A" ∧
    ∃ b, quote "A" = some b ∧
      osReadFile (Write quote dbDriver [] "users" "alice" "A").1
        (finalPath dbDriver "users" "alice") = Except.ok (b ++ "\n") :=
  C1_write_then_read quote unquote dbDriver [] _ "users" "alice" "A" (by decide) (by decide)
    (by intro b hb; cases hb; decide)

theorem replaceSpaces_idem (r : String) : replaceSpaces (replaceSpaces r) = replaceSpaces r := by
  apply String.ext
  simp only [replaceSpaces, List.map_map]
  apply List.map_congr_left
  intro c _
  by_cases h : c = ' '
  · simp [h]
  · simp [h]

theorem replaceSpaces_eq_empty (r : String) : replaceSpaces r = "" ↔ r = "" := by
  constructor
  · intro h
    apply String.ext
    have := congrArg String.data h
    simpa [replaceSpaces] using this
  · intro h
    subst h
    rfl

theorem Read_norm {α : Type} (unmarshal : String → Option α) (d : Driver) (fs : FS)
    (c r : String) : Read unmarshal d fs c r = Read unmarshal d fs c (replaceSpaces r) := by
  have hne : (r = "") = (replaceSpaces r = "") := propext (replaceSpaces_eq_empty r).symm
  simp only [Read, replaceSpaces_idem, hne]

theorem Delete_norm (d : Driver) (fs : FS) (c r : String) :
    Delete d fs c r = Delete d fs c (replaceSpaces r) := by
  by_cases h : r = ""
  · subst h
    have : replaceSpaces "" = "" := rfl
    rw [this]
  · have h1 : ¬ replaceSpaces r = "" := fun e => h ((replaceSpaces_eq_empty r).1 e)
    simp only [Delete, ne_eq, replaceSpaces_idem, h, h1, not_false_eq_true, if_true]

/-- C5, as stated, fails: the collection name is not normalised.  A record
written to the collection `my users` is stored in the directory `my users`, and
`Read` from the collection `my_users` does not find it. -/
theorem C5_collection_not_normalised :
    (Write quote here [] "my users" "a" "A").2 = none ∧
    Read unquote here (Write quote here [] "my users" "a" "A").1 "my_users" "a"
      = Except.error Error.notExist := by
  decide

/-- C5, amended: `Write`, `Read` and `Delete` replace every space of the
resource name by an underscore before the path is built, so for all names each
of them called with a resource name returns what it returns, and leaves the
store it leaves, when called with the normalised name; the collection name is
used as it is given.  In particular, in every store and collection, a
successful `Write` under `foo bar` followed by `Read` of `foo_bar` yields the
value. -/
theorem C5_resource_normalised {α : Type} (marshal : α → Option String)
    (unmarshal : String → Option α) (d : Driver) (fs : FS) (c r : String) (v : α) :
    Write marshal d fs c r v = Write marshal d fs c (replaceSpaces r) v ∧
    Read unmarshal d fs c r = Read unmarshal d fs c (replaceSpaces r) ∧
    Delete d fs c r = Delete d fs c (replaceSpaces r) ∧
    (∀ fs1 : FS, Write marshal d fs c "foo bar" v = (fs1, none) →
      (∀ b, marshal v = some b → unmarshal (b ++ "\n") = some v) →
      Read unmarshal d fs1 c "foo_bar" = Except.ok v) := by
  have hne : (r = "") = (replaceSpaces r = "") := propext (replaceSpaces_eq_empty r).symm
  refine ⟨?_, ?_, ?_, ?_⟩
  · simp only [Write, writeTmp, tmpPath, finalPath, replaceSpaces_idem, hne]
  · exact Read_norm unmarshal d fs c r
  · exact Delete_norm d fs c r
  · intro fs1 hw hcodec
    obtain ⟨b, hb, _, _, hread⟩ :=
      write_read_core marshal unmarshal d fs fs1 c "foo bar" v (by decide) hw
    have e : "foo_bar" = replaceSpaces "foo bar" := by decide
    rw [e, ← Read_norm, hread, hcodec b hb]

/-- C5, amended, at concrete inputs: in a store that holds the record `a_b`,
`Read` and `Delete` under the name `a b` find that record, and a second
`Write` under `a b` replaces it; and the round trip of `foo bar` and
`foo_bar` in that store. -/
theorem C5_resource_normalised_witness :
    Read unquote dbDriver (Write quote dbDriver [] "users" "a_b" "A").1 "users" "a b"
        = Except.ok "A" ∧
    Delete dbDriver (Write quote dbDriver [] "users" "a_b" "A").1 "users" "a b"
        = ([(["db", "users"], Node.dir), (["db"], Node.dir)], none) ∧
    Write quote dbDriver (Write quote dbDriver [] "users" "a_b" "A").1 "users" "a b" "B"
        = ([(["db", "users", "a_b.json"], Node.file "\"B\"\n"), (["db", "users"], Node.dir),
            (["db"], Node.dir)], none) ∧
    Read unquote dbDriver
        (Write quote dbDriver (Write quote dbDriver [] "users" "a_b" "A").1
          "users" "foo bar" "B").1 "users" "foo_bar" = Except.ok "B" := by
  have h := C5_resource_normalised quote unquote dbDriver
    (Write quote dbDriver [] "users" "a_b" "A").1 "users" "a b" "B"
  refine ⟨?_, ?_, ?_, ?_⟩
  · rw [h.2.1]; decide
  · rw [h.2.2.1]; decide
  · rw [h.1]; decide
  · exact h.2.2.2 _ (by decide) (by intro b hb; cases hb; decide)

/-- C10, as stated, fails: for the collection `x.json` and the resource `../x`
the final path is the collection directory itself.  It is absent before the
`Write`; in the state after the temporary file is written it is a directory,
made by `os.MkdirAll`, and `Read` there returns another error than before. -/
theorem C10_final_path_changed_before_rename :
    (writeTmp quote dbDriver [(["db"], Node.dir)] "x.json" "../x" "A").2 = none ∧
    finalPath dbDriver "x.json" "../x" = "db/x.json" ∧
    osStat [(["db"], Node.dir)] (finalPath dbDriver "x.json" "../x")
      = Except.error Error.notExist ∧
    osStat (writeTmp quote dbDriver [(["db"], Node.dir)] "x.json" "../x" "A").1
      (finalPath dbDriver "x.json" "../x") = Except.ok Node.dir ∧
    Read unquote dbDriver [(["db"], Node.dir)] "x.json" "../x"
      = Except.error Error.notExist ∧
    Read unquote dbDriver (writeTmp quote dbDriver [(["db"], Node.dir)] "x.json" "../x" "A").1
      "x.json" "../x" = Except.error Error.isDir := by
  decide

/-- C10, amended: for every `Write` of a record whose name is a single path
segment, in the state reached after the temporary file has been written and
before the rename, the final path holds exactly what it held before the
`Write` began (the same content, or still nothing), and `Read` returns there
what it returned before; the temporary path differs from the final path, as
text and as a location; and `os.MkdirAll`, the only other step that changes
the store, leaves the final path as it was, so that only the rename changes
it. -/
theorem C10_final_untouched_before_rename {α : Type} (marshal : α → Option String)
    (unmarshal : String → Option α) (d : Driver) (fs fs2 : FS) (c r : String) (v : α)
    (hr : segment r)
    (hw : writeTmp marshal d fs c r v = (fs2, none)) :
    FS.lookup fs2 (osKey (finalPath d c r)) = FS.lookup fs (osKey (finalPath d c r)) ∧
    osReadFile fs2 (finalPath d c r) = osReadFile fs (finalPath d c r) ∧
    Read unmarshal d fs2 c r = Read unmarshal d fs c r ∧
    tmpPath d c r ≠ finalPath d c r ∧
    osKey (tmpPath d c r) ≠ osKey (finalPath d c r) ∧
    FS.lookup (osMkdirAll fs (Join [d.dir, c])).1 (osKey (finalPath d c r))
      = FS.lookup fs (osKey (finalPath d c r)) := by
  obtain ⟨hc, _, fs1, b, hmk, _, hwf⟩ := writeTmp_ok hw
  obtain ⟨hF, hT, _, _⟩ := layout d c r hc hr
  obtain ⟨_, e2⟩ := osWriteFile_ok hwf
  have hTF : osKey (tmpPath d c r) ≠ osKey (finalPath d c r) := by
    rw [hT, hF]; exact append_singleton_ne (json_ne_tmp _)
  have hlen : ([] : List String).length + (osKey (Join [d.dir, c])).length
      < (osKey (finalPath d c r)).length := by
    rw [hF]; simp
  have hmkF : FS.lookup (osMkdirAll fs (Join [d.dir, c])).1 (osKey (finalPath d c r))
      = FS.lookup fs (osKey (finalPath d c r)) :=
    mkdirs_lookup _ fs [] _ (Or.inr hlen)
  have h1 : FS.lookup fs1 (osKey (finalPath d c r)) = FS.lookup fs (osKey (finalPath d c r)) := by
    rw [hmk] at hmkF; exact hmkF
  have hlook : FS.lookup fs2 (osKey (finalPath d c r))
      = FS.lookup fs (osKey (finalPath d c r)) := by
    rw [e2, lookup_set _ _ _ _ hTF.symm, h1]
  have hmF : missingError fs2 (osKey (finalPath d c r))
      = missingError fs (osKey (finalPath d c r)) := by
    rw [hF, missingError_child_nofile fs, missingError_child fs2]
    · intro k
      have n2 : (osKey (Join [d.dir, c])).take k ≠ osKey (tmpPath d c r) := by
        rw [hT]; exact take_ne_snoc _ _ _
      have := mkdirs_dirs _ fs fs1 [] (by simp [FS.lookup]) hmk k
      simp only [List.nil_append] at this
      rw [e2, lookup_set _ _ _ _ n2, this]
    · intro k x
      have := mkdirs_nofile _ fs fs1 [] (by simp [FS.lookup]) hmk k x
      simpa using this
  have hd0 : ∀ k x, FS.lookup fs ((osKey (Join [d.dir, c])).take k) ≠ some (Node.file x) := by
    intro k x
    have := mkdirs_nofile _ fs fs1 [] (by simp [FS.lookup]) hmk k x
    simpa using this
  have hd2 : ∀ k x, FS.lookup fs2 ((osKey (Join [d.dir, c])).take k) ≠ some (Node.file x) := by
    intro k x
    have n2 : (osKey (Join [d.dir, c])).take k ≠ osKey (tmpPath d c r) := by
      rw [hT]; exact take_ne_snoc _ _ _
    have := mkdirs_dirs _ fs fs1 [] (by simp [FS.lookup]) hmk k
    simp only [List.nil_append] at this
    rw [e2, lookup_set _ _ _ _ n2, this]
    simp
  refine ⟨hlook, ?_, ?_, ?_, hTF, hmkF⟩
  · simp only [osReadFile, hlook, hmF]
  · rw [Read_eq unmarshal d fs2 c r hc hr hd2, Read_eq unmarshal d fs c r hc hr hd0, hlook]
  · intro e
    have := congrArg (fun t : String => t.data.length) e
    simp only [tmpPath, String.data_append, List.length_append, List.length_cons,
      List.length_nil] at this
    omega

/-- C10, amended, at a concrete input: the record `alice` is replaced. -/
theorem C10_final_untouched_before_rename_witness :
    FS.lookup (writeTmp quote dbDriver (Write quote dbDriver [] "users" "alice" "A").1
        "users" "alice" "B").1 (osKey (finalPath dbDriver "users" "alice"))
      = FS.lookup (Write quote dbDriver [] "users" "alice" "A").1
          (osKey (finalPath dbDriver "users" "alice")) ∧
    osReadFile (writeTmp quote dbDriver (Write quote dbDriver [] "users" "alice" "A").1
        "users" "alice" "B").1 (finalPath dbDriver "users" "alice")
      = osReadFile (Write quote dbDriver [] "users" "alice" "A").1
          (finalPath dbDriver "users" "alice") ∧
    Read unquote dbDriver (writeTmp quote dbDriver (Write quote dbDriver [] "users" "alice" "A").1
        "users" "alice" "B").1 "users" "alice"
      = Read unquote dbDriver (Write quote dbDriver [] "users" "alice" "A").1 "users" "alice" ∧
    tmpPath dbDriver "users" "alice" ≠ finalPath dbDriver "users" "alice" ∧
    osKey (tmpPath dbDriver "users" "alice") ≠ osKey (finalPath dbDriver "users" "alice") ∧
    FS.lookup (osMkdirAll (Write quote dbDriver [] "users" "alice" "A").1
        (Join [dbDriver.dir, "users"])).1 (osKey (finalPath dbDriver "users" "alice"))
      = FS.lookup (Write quote dbDriver [] "users" "alice" "A").1
          (osKey (finalPath dbDriver "users" "alice")) :=
  C10_final_untouched_before_rename quote unquote dbDriver
    (Write quote dbDriver [] "users" "alice" "A").1 _ "users" "alice" "B"
    (by decide) (by decide)

/-! ### Listing a directory -/

theorem childName_snoc (kD : List String) (x : String) : childName kD (kD ++ [x]) = some x := by
  induction kD with
  | nil => rfl
  | cons a rest ih => simp [childName, ih]

theorem childName_some (kD k : List String) (x : String) (h : childName kD k = some x) :
    k = kD ++ [x] := by
  induction kD generalizing k with
  | nil =>
    cases k with
    | nil => simp [childName] at h
    | cons y ys =>
      cases ys with
      | nil => simp [childName] at h; simp [h]
      | cons z zs => simp [childName] at h
  | cons a rest ih =>
    cases k with
    | nil => simp [childName] at h
    | cons y ys =>
      simp only [childName] at h
      split at h
      · next hay => rw [hay, ih ys h]; rfl
      · simp at h

theorem filterMap_none {β γ : Type} (f : β → Option γ) (l : List β)
    (h : ∀ e ∈ l, f e = none) : l.filterMap f = [] := by
  induction l with
  | nil => rfl
  | cons a rest ih =>
    rw [List.filterMap_cons, h a (by simp)]
    exact ih (fun e he => h e (by simp [he]))

theorem wf_no_children (fs : FS) (kD : List String) (hwf : FS.WF fs)
    (habs : FS.lookup fs kD = none) : ∀ e ∈ fs, childName kD e.1 = none := by
  intro e he
  cases hch : childName kD e.1 with
  | none => rfl
  | some x =>
    have hk := childName_some kD e.1 x hch
    have := hwf e he
    rw [hk, List.dropLast_concat, habs] at this
    simp at this

theorem readFiles_forall (fs : FS) (dir : String) (names : List String) :
    ∀ l, readFiles fs dir names = Except.ok l →
      List.Forall₂ (fun name s => osReadFile fs (Join [dir, name]) = Except.ok s) names l := by
  induction names with
  | nil =>
    intro l h
    simp only [readFiles, Except.ok.injEq] at h
    subst h
    exact List.Forall₂.nil
  | cons name rest ih =>
    intro l h
    simp only [readFiles] at h
    split at h
    · simp at h
    · next record hrec =>
      split at h
      · simp at h
      · next records hrest =>
        simp only [Except.ok.injEq] at h
        subst h
        exact List.Forall₂.cons hrec (ih records hrest)

/-- C6, as stated, fails: for the resource `../x` the record is stored beside
the collection directory, not in it, and `ReadAll` after the successful first
`Write` returns the empty list. -/
theorem C6_ReadAll_empty_after_first_write :
    osStat [(["db"], Node.dir)] (Join [dbDriver.dir, "users"]) = Except.error Error.notExist ∧
    (Write quote dbDriver [(["db"], Node.dir)] "users" "../x" "A").2 = none ∧
    ReadAll dbDriver (Write quote dbDriver [(["db"], Node.dir)] "users" "../x" "A").1 "users"
      = Except.ok [] := by
  decide

/-- C6, amended: for every store in which every entry lies in a directory and
the collection directory does not yet exist, and every resource name that is a
single path segment, after `Write` returns no error `ReadAll` returns no error
and exactly one string, the serialised value followed by one newline; the
directory then lists the final file only, the temporary file does not exist.
In general, when `ReadAll` returns a list for a collection whose directory
`os.ReadDir` lists, the list has one string per listed entry, in the order of
the listing, each the full content of that file. -/
theorem C6_ReadAll_after_first_write {α : Type} (marshal : α → Option String)
    (d : Driver) (fs fs1 : FS) (c r : String) (v : α)
    (g : FS) (k : String) (names l : List String)
    (hr : segment r) (hwf : FS.WF fs)
    (habs : FS.lookup fs (osKey (Join [d.dir, c])) = none)
    (hw : Write marshal d fs c r v = (fs1, none))
    (hdir : osReadDir g (Join [d.dir, k]) = Except.ok names)
    (hall : ReadAll d g k = Except.ok l) :
    (∃ b, marshal v = some b ∧ ReadAll d fs1 c = Except.ok [b ++ "\n"]) ∧
    osReadDir fs1 (Join [d.dir, c]) = Except.ok [replaceSpaces r ++ ".json"] ∧
    osStat fs1 (tmpPath d c r) = Except.error Error.notExist ∧
    List.Forall₂ (fun name s => osReadFile g (Join [Join [d.dir, k], name]) = Except.ok s)
      names l := by
  obtain ⟨hc, _, fs0, b, hmk, hb, e3⟩ := Write_result hw
  obtain ⟨hF, hT, _, _⟩ := layout d c r hc hr
  have hFne : osKey (finalPath d c r) ≠ [] := by rw [hF]; simp
  have hTne : osKey (tmpPath d c r) ≠ [] := by rw [hT]; simp
  have hTF : osKey (tmpPath d c r) ≠ osKey (finalPath d c r) := by
    rw [hT, hF]; exact append_singleton_ne (json_ne_tmp _)
  have hfile : FS.lookup fs1 (osKey (finalPath d c r)) = some (Node.file (b ++ "\n")) := by
    rw [e3]; exact lookup_set_self _ _ _ hFne
  have htmp : FS.lookup fs1 (osKey (tmpPath d c r)) = none := by
    rw [e3, lookup_set _ _ _ _ hTF]
    exact lookup_remove_self _ _ hTne
  have hdirs : ∀ k, FS.lookup fs1 ((osKey (Join [d.dir, c])).take k) = some Node.dir := by
    intro k
    have h1 := mkdirs_dirs _ fs fs0 [] (by simp [FS.lookup]) hmk k
    simp only [List.nil_append] at h1
    have n1 : (osKey (Join [d.dir, c])).take k ≠ osKey (finalPath d c r) := by
      rw [hF]; exact take_ne_snoc _ _ _
    have n2 : (osKey (Join [d.dir, c])).take k ≠ osKey (tmpPath d c r) := by
      rw [hT]; exact take_ne_snoc _ _ _
    rw [e3, lookup_set _ _ _ _ n1, lookup_remove _ _ _ n2, lookup_set _ _ _ _ n2, h1]
  have hD : FS.lookup fs1 (osKey (Join [d.dir, c])) = some Node.dir := by
    have := hdirs (osKey (Join [d.dir, c])).length
    simpa using this
  have hnames : FS.names fs1 (osKey (Join [d.dir, c])) = [replaceSpaces r ++ ".json"] := by
    have hrest : ∀ e ∈ FS.remove (FS.remove (FS.set fs0 (osKey (tmpPath d c r))
        (Node.file (b ++ "\n"))) (osKey (tmpPath d c r))) (osKey (finalPath d c r)),
        childName (osKey (Join [d.dir, c])) e.1 = none := by
      intro e he
      obtain ⟨he1, _⟩ := mem_remove he
      obtain ⟨he2, hne2⟩ := mem_remove he1
      have he3 : e ∈ fs0 := by
        rcases mem_set he2 with h | h
        · exact absurd (by rw [h]) hne2
        · exact h.1
      have he4 := mkdirs_mem _ fs [] e (by rw [hmk]; exact he3)
      rcases he4 with h | h
      · exact wf_no_children fs _ hwf habs e h
      · cases hch : childName (osKey (Join [d.dir, c])) e.1 with
        | none => rfl
        | some x =>
          have := childName_some _ _ _ hch
          rw [this] at h
          simp at h
    have hs : ∀ (x : FS) (p : List String) (n : Node),
        FS.set x p n = (p, n) :: FS.remove x p := fun _ _ _ => rfl
    have hhead : childName (osKey (Join [d.dir, c])) (osKey (finalPath d c r))
        = some (replaceSpaces r ++ ".json") := by
      rw [hF]; exact childName_snoc _ _
    simp only [FS.names]
    rw [e3, hs, List.filterMap_cons]
    simp only [hhead]
    rw [filterMap_none _ _ hrest]
    rfl
  have hreaddir : osReadDir fs1 (Join [d.dir, c]) = Except.ok [replaceSpaces r ++ ".json"] := by
    simp only [osReadDir, hD, hnames]
  refine ⟨⟨b, hb, ?_⟩, hreaddir, ?_, ?_⟩
  · have hfin : Join [Join [d.dir, c], replaceSpaces r ++ ".json"] = finalPath d c r := rfl
    simp only [ReadAll, if_neg hc, stat, osStat, hD, hreaddir, readFiles, hfin, osReadFile,
      hfile]
  · have hm : missingError fs1 (osKey (tmpPath d c r)) = Error.notExist := by
      rw [hT]; exact missingError_child fs1 _ _ hdirs
    simp only [osStat, htmp, hm]
  · unfold ReadAll at hall
    split at hall
    · simp at hall
    · simp only at hall
      split at hall
      · simp at hall
      · rw [hdir] at hall
        exact readFiles_forall g _ names l hall

/-- C6, amended, at a concrete input; the general part is applied to a
collection that holds two records. -/
theorem C6_ReadAll_after_first_write_witness :
    (∃ b, quote "A" = some b ∧
      ReadAll dbDriver (Write quote dbDriver [(["db"], Node.dir)] "users" "alice" "A").1 "users"
        = Except.ok [b ++ "\n"]) ∧
    osReadDir (Write quote dbDriver [(["db"], Node.dir)] "users" "alice" "A").1
      (Join [dbDriver.dir, "users"]) = Except.ok [replaceSpaces "alice" ++ ".json"] ∧
    osStat (Write quote dbDriver [(["db"], Node.dir)] "users" "alice" "A").1
      (tmpPath dbDriver "users" "alice") = Except.error Error.notExist ∧
    List.Forall₂
      (fun name s =>
        osReadFile (Write quote dbDriver
            (Write quote dbDriver [(["db"], Node.dir)] "users" "bob" "B").1 "users" "al" "A").1
          (Join [Join [dbDriver.dir, "users"], name]) = Except.ok s)
      ["al.json", "bob.json"] ["\"A\"\n", "\"B\"\n"] :=
  C6_ReadAll_after_first_write quote dbDriver [(["db"], Node.dir)] _ "users" "alice" "A"
    (Write quote dbDriver (Write quote dbDriver [(["db"], Node.dir)] "users" "bob" "B").1
      "users" "al" "A").1 "users" ["al.json", "bob.json"] ["\"A\"\n", "\"B\"\n"]
    (by decide) (by decide) (by decide) (by decide) (by decide) (by decide)

/-! ### Removing a record -/

theorem find_filter (f : List String → Bool) (fs : FS) (q : List String) :
    FS.find (fs.filter (fun e => f e.1)) q = if f q then FS.find fs q else none := by
  induction fs with
  | nil => simp [FS.find]
  | cons e rest ih =>
    obtain ⟨k, n⟩ := e
    by_cases hk : f k = true
    · rw [List.filter_cons_of_pos (by simpa using hk)]
      simp only [FS.find]
      by_cases hkq : k = q
      · subst hkq; simp [hk]
      · rw [if_neg hkq, if_neg hkq]; exact ih
    · rw [List.filter_cons_of_neg (by simpa using hk)]
      simp only [FS.find]
      by_cases hkq : k = q
      · subst hkq; rw [ih]; simp [hk]
      · rw [if_neg hkq]; exact ih

theorem below_self (p : List String) : below p p = true := by
  induction p with
  | nil => rfl
  | cons a rest ih => simp [below, ih]

theorem below_length (p q : List String) (h : below p q = true) : p.length ≤ q.length := by
  induction p generalizing q with
  | nil => simp
  | cons a rest ih =>
    cases q with
    | nil => simp [below] at h
    | cons b q =>
      simp only [below, Bool.and_eq_true] at h
      have := ih q h.2
      simp
      omega

theorem lookup_removeAll_self (fs : FS) (p : List String) (hp : p ≠ []) :
    FS.lookup (fs.filter (fun e => !below p e.1)) p = none := by
  simp only [FS.lookup, if_neg hp]
  rw [find_filter (fun k => !below p k)]
  simp [below_self]

theorem lookup_removeAll_short (fs : FS) (p q : List String) (h : q.length < p.length) :
    FS.lookup (fs.filter (fun e => !below p e.1)) q = FS.lookup fs q := by
  have hb : below p q = false := by
    cases hbq : below p q with
    | false => rfl
    | true =>
      have := below_length p q hbq
      omega
  simp only [FS.lookup]
  rw [find_filter (fun k => !below p k)]
  simp [hb]

theorem wf_dirs_above (fs : FS) (hwf : FS.WF fs) : ∀ (m : Nat) (q : List String) (n : Node),
    q.length = m → FS.lookup fs q = some n →
    ∀ k, k < m → FS.lookup fs (q.take k) = some Node.dir := by
  intro m
  induction m with
  | zero => intro q n _ _ k hk; omega
  | succ m ih =>
    intro q n hq hl k hk
    have hne : q ≠ [] := by
      intro e
      rw [e] at hq
      simp at hq
    have hfind : FS.find fs q = some n := by simpa [FS.lookup, hne] using hl
    have hparent := hwf (q, n) (find_some_mem fs q n hfind)
    simp only at hparent
    have hlen : q.dropLast.length = m := by simp [hq]
    by_cases hkm : k = m
    · have h2 : q.dropLast = q.take (q.length - 1) := List.dropLast_eq_take q
      rw [hq] at h2
      simp only [Nat.add_sub_cancel] at h2
      rw [hkm, ← h2]
      exact hparent
    · have hk2 : k < m := by omega
      have := ih q.dropLast Node.dir hlen hparent k hk2
      rw [List.dropLast_eq_take, List.take_take] at this
      have hmin : min k (q.length - 1) = k := by
        rw [hq]; simp; omega
      rwa [hmin] at this

theorem isRooted_segment {c : String} (h : segment c) : isRooted c.data = false := by
  obtain ⟨h1, h2, _, _⟩ := h
  cases hd : c.data with
  | nil => exact absurd hd h1
  | cons x xs =>
    have : x ≠ '/' := by
      intro e
      apply h2
      rw [hd, e]
      simp
    simp [isRooted, this]

theorem Join_segments (c n : String) (hc : segment c) (hn : segment n) :
    Join [c, n] = String.mk (c.data ++ '/' :: n.data) := by
  obtain ⟨h1, h2, h3, h4⟩ := hn
  rw [Join_two c n hc.1, Clean_join c.data n.data hc.1 h1 h2 h3 h4, isRooted_segment hc]
  have : cleanComps false c.data = [c.data] := by
    unfold cleanComps
    rw [splitSlash_noSlash c.data hc.2.1]
    simp [cleanStep_push false [] c.data hc.1 hc.2.2.1 hc.2.2.2]
  rw [this]
  simp [render, joinSlash]

/-- For names that are single segments `Delete` tests the path that `Read`
tests. -/
theorem Delete_path (d : Driver) (c n : String) (hc : segment c) (hn : segment n) :
    Join [d.dir, Join [c, n]] = Join [d.dir, c, n] := by
  rw [Join_segments c n hc hn]
  by_cases hb : d.dir.data = []
  · rw [Join_nil_three d.dir c n hb hc.1, Join_nil_two d.dir _ hb (by simp)]
  · rw [Join_three d.dir c n hb, Join_two d.dir _ hb]
    simp

/-- C2, as stated, fails for a store in which the collection directory holds a
sub-directory with the name of the resource: `Delete` returns no error and
removes that sub-directory; the record file is still there and `Read` still
returns the record. -/
theorem C2_delete_removes_directory_not_record :
    (Write quote here [(["users"], Node.dir), (["users", "bob"], Node.dir)]
      "users" "bob" "A").2 = none ∧
    (Delete here (Write quote here [(["users"], Node.dir), (["users", "bob"], Node.dir)]
      "users" "bob" "A").1 "users" "bob").2 = none ∧
    osReadFile (Delete here (Write quote here [(["users"], Node.dir), (["users", "bob"], Node.dir)]
      "users" "bob" "A").1 "users" "bob").1 (finalPath here "users" "bob")
      = Except.ok "\"A\"\n" ∧
    Read unquote here (Delete here (Write quote here
      [(["users"], Node.dir), (["users", "bob"], Node.dir)]
      "users" "bob" "A").1 "users" "bob").1 "users" "bob" = Except.ok "A" := by
  decide

/-- C2, amended: for collection and resource names that are single path
segments (a resource name that ends in `.json` included), in every store in
which every entry lies in a directory, the record file exists and the
collection directory holds no sub-directory with the name of the resource: if
`Delete` returns no error then the record file no longer exists and a
following `Read` fails with the not-found error of a path that does not
exist. -/
theorem C2_delete_removes_record {α : Type} (unmarshal : String → Option α)
    (d : Driver) (fs fs1 : FS) (c r content : String)
    (hc : segment c) (hr : segment r) (hwf : FS.WF fs)
    (hrec : osReadFile fs (finalPath d c r) = Except.ok content)
    (hnd : osStat fs (Join [d.dir, c, replaceSpaces r]) ≠ Except.ok Node.dir)
    (hdel : Delete d fs c r = (fs1, none)) :
    osStat fs1 (finalPath d c r) = Except.error Error.notExist ∧
    Read unmarshal d fs1 c r = Except.error Error.notExist := by
  have hc0 := segment_ne_empty hc
  have hr0 := segment_ne_empty hr
  have hr1 := segment_replaceSpaces hr
  obtain ⟨hF, _, hR, hjson⟩ := layout d c r hc0 hr
  have hFne : osKey (finalPath d c r) ≠ [] := by rw [hF]; simp
  have hfile : FS.lookup fs (osKey (finalPath d c r)) = some (Node.file content) := by
    unfold osReadFile at hrec
    split at hrec
    · next x hx => simp only [Except.ok.injEq] at hrec; rw [hx, hrec]
    · simp at hrec
    · simp at hrec
  have hdirs : ∀ k, FS.lookup fs ((osKey (Join [d.dir, c])).take k) = some Node.dir := by
    intro k
    have hlenF : (osKey (finalPath d c r)).length = (osKey (Join [d.dir, c])).length + 1 := by
      rw [hF]; simp
    have h := wf_dirs_above fs hwf _ _ _ hlenF hfile
      (min k (osKey (Join [d.dir, c])).length) (by omega)
    rw [hF, List.take_append_of_le_length (Nat.min_le_right _ _)] at h
    by_cases hk : k ≤ (osKey (Join [d.dir, c])).length
    · rwa [Nat.min_eq_left hk] at h
    · have hk2 : (osKey (Join [d.dir, c])).length ≤ k := by omega
      rw [Nat.min_eq_right hk2, List.take_length] at h
      rwa [List.take_of_length_le hk2]
  have hstatF : osStat fs (finalPath d c r) = Except.ok (Node.file content) := by
    simp only [osStat, hfile]
  -- what Delete does
  have hfs1 : fs1 = fs.filter (fun e => !below (osKey (finalPath d c r)) e.1) := by
    unfold Delete at hdel
    rw [if_neg hc0] at hdel
    simp only [ne_eq, hr0, not_false_eq_true, if_true] at hdel
    rw [Delete_path d c _ hc hr1, hjson] at hdel
    have hrm : osRemoveAll fs (finalPath d c r)
        = (fs.filter (fun e => !below (osKey (finalPath d c r)) e.1), none) := by
      simp only [osRemoveAll, if_neg hFne]
    cases hlR : FS.lookup fs (osKey (Join [d.dir, c, replaceSpaces r])) with
    | some n =>
      have hst : stat fs (Join [d.dir, c, replaceSpaces r]) = Except.ok n := by
        simp only [stat, osStat, hlR]
      cases n with
      | dir =>
        exfalso
        apply hnd
        simp only [osStat, hlR]
      | file x =>
        rw [hst] at hdel
        simp only [hrm, Prod.mk.injEq, and_true] at hdel
        exact hdel.symm
    | none =>
      have hm : missingError fs (osKey (Join [d.dir, c, replaceSpaces r])) = Error.notExist := by
        rw [hR]; exact missingError_child fs _ _ hdirs
      have hst : stat fs (Join [d.dir, c, replaceSpaces r])
          = Except.ok (Node.file content) := by
        simp only [stat, osStat, hlR, hm, Error.isNotExist, if_true, hjson, hfile]
      rw [hst] at hdel
      simp only [hrm, Prod.mk.injEq, and_true] at hdel
      exact hdel.symm
  have hgone : FS.lookup fs1 (osKey (finalPath d c r)) = none := by
    rw [hfs1]; exact lookup_removeAll_self fs _ hFne
  have hdirs1 : ∀ k, FS.lookup fs1 ((osKey (Join [d.dir, c])).take k) = some Node.dir := by
    intro k
    rw [hfs1, lookup_removeAll_short fs _ _ (by rw [hF]; simp)]
    exact hdirs k
  have hm1 : missingError fs1 (osKey (finalPath d c r)) = Error.notExist := by
    rw [hF]; exact missingError_child fs1 _ _ hdirs1
  constructor
  · simp only [osStat, hgone, hm1]
  · rw [Read_eq unmarshal d fs1 c r hc0 hr (fun k x => by rw [hdirs1 k]; simp), hgone]

/-- C2, amended, at a concrete input: a resource name that ends in `.json`,
beside the record `a`. -/
theorem C2_delete_removes_record_witness :
    osStat (Delete dbDriver (Write quote dbDriver
        (Write quote dbDriver [(["db"], Node.dir)] "users" "a" "A").1 "users" "a.json" "B").1
        "users" "a.json").1 (finalPath dbDriver "users" "a.json")
      = Except.error Error.notExist ∧
    Read unquote dbDriver (Delete dbDriver (Write quote dbDriver
        (Write quote dbDriver [(["db"], Node.dir)] "users" "a" "A").1 "users" "a.json" "B").1
        "users" "a.json").1 "users" "a.json" = Except.error Error.notExist :=
  C2_delete_removes_record unquote dbDriver
    (Write quote dbDriver (Write quote dbDriver [(["db"], Node.dir)] "users" "a" "A").1
      "users" "a.json" "B").1 _ "users" "a.json" "\"B\"\n"
    (by decide) (by decide) (by decide) (by decide) (by decide) (by decide)

/-- Why the resource name of a deleted record has to be a single segment: for
the resource `.` the method `Delete` removes the whole collection directory,
and the `Read` that follows finds the file `users.json` beside it and returns
its content without an error. -/
theorem Delete_dot_then_Read :
    (Write quote here [(["users.json"], Node.file "\"Z\"\n")] "users" "." "A").2 = none ∧
    Delete here (Write quote here [(["users.json"], Node.file "\"Z\"\n")] "users" "." "A").1
      "users" "." = ([(["users.json"], Node.file "\"Z\"\n")], none) ∧
    Read unquote here [(["users.json"], Node.file "\"Z\"\n")] "users" "." = Except.ok "Z" := by
  decide

/-- Why the collection name of a deleted record has to be a single segment:
for the collection `/../x` the method `Write` stores the record as `x/a.json`,
and `Delete`, which joins collection and resource before the base directory,
removes `db/x/a.json` and returns no error; the record is still read. -/
theorem Delete_rooted_collection_other_path :
    finalPath dbDriver "/../x" "a" = "x/a.json" ∧
    Join [dbDriver.dir, Join ["/../x", "a"]] = "db/x/a" ∧
    (Write quote dbDriver [(["db"], Node.dir), (["db", "x"], Node.dir),
      (["db", "x", "a.json"], Node.file "\"Z\"\n")] "/../x" "a" "A").2 = none ∧
    (Delete dbDriver (Write quote dbDriver [(["db"], Node.dir), (["db", "x"], Node.dir),
      (["db", "x", "a.json"], Node.file "\"Z\"\n")] "/../x" "a" "A").1 "/../x" "a").2 = none ∧
    Read unquote dbDriver (Delete dbDriver (Write quote dbDriver [(["db"], Node.dir),
      (["db", "x"], Node.dir), (["db", "x", "a.json"], Node.file "\"Z\"\n")]
      "/../x" "a" "A").1 "/../x" "a").1 "/../x" "a" = Except.ok "A" := by
  decide

/-- C3, at the failing input: the working directory holds a file `users.json`
and no directory `users`.  `os.Stat` of the collection directory reports that
it does not exist, and `ReadAll` returns the empty list with a nil error; the
same after `Delete` of the whole collection in a store that holds both. -/
theorem C3_ReadAll_without_directory :
    osStat [(["users.json"], Node.file "{}\n")] (Join [here.dir, "users"])
      = Except.error Error.notExist ∧
    ReadAll here [(["users.json"], Node.file "{}\n")] "users" = Except.ok [] ∧
    Delete here [(["users"], Node.dir), (["users", "a.json"], Node.file "{}\n"),
        (["users.json"], Node.file "{}\n")] "users" ""
      = ([(["users.json"], Node.file "{}\n")], none) ∧
    ReadAll here (Delete here [(["users"], Node.dir), (["users", "a.json"], Node.file "{}\n"),
        (["users.json"], Node.file "{}\n")] "users" "").1 "users" = Except.ok [] := by
  decide

/-- C4, at the failing input: in a store without `db` and without `db.json`,
`New` returns a nil error and the store is unchanged, so the base directory
still does not exist. -/
theorem C4_New_leaves_missing_directory :
    New [] "db" = (dbDriver, [], none) ∧
    osStat (New [] "db").2.1 (Clean "db") = Except.error Error.notExist := by
  decide

/-! ### The handlers -/

theorem copy_fields (n o : User) :
    (copyNonEmptyFields n o).Name = (if n.Name ≠ "" then n.Name else o.Name) ∧
    (copyNonEmptyFields n o).Age = (if n.Age ≠ "" then n.Age else o.Age) ∧
    (copyNonEmptyFields n o).Contact = (if n.Contact ≠ "" then n.Contact else o.Contact) ∧
    (copyNonEmptyFields n o).Company = (if n.Company ≠ "" then n.Company else o.Company) ∧
    (copyNonEmptyFields n o).Address
      = (if n.Address ≠ Address.zero then n.Address else o.Address) := by
  simp only [copyNonEmptyFields]
  refine ⟨?_, ?_, ?_, ?_, ?_⟩ <;>
    (by_cases h1 : n.Name = "" <;> by_cases h2 : n.Age = "" <;>
      by_cases h3 : n.Contact = "" <;> by_cases h4 : n.Company = "" <;>
      by_cases h5 : n.Address = Address.zero <;> simp [h1, h2, h3, h4, h5])

theorem User_ext (a b : User) (e1 : a.Name = b.Name) (e2 : a.Age = b.Age)
    (e3 : a.Contact = b.Contact) (e4 : a.Company = b.Company) (e5 : a.Address = b.Address) :
    a = b := by
  cases a; cases b
  simp only at e1 e2 e3 e4 e5
  simp [e1, e2, e3, e4, e5]

theorem copy_zero (o : User) : copyNonEmptyFields User.zero o = o := by
  obtain ⟨g1, g2, g3, g4, g5⟩ := copy_fields User.zero o
  exact User_ext _ _ (by rw [g1]; rfl) (by rw [g2]; rfl) (by rw [g3]; rfl) (by rw [g4]; rfl)
    (by rw [g5]; rfl)

theorem copy_idem (n o : User) :
    copyNonEmptyFields n (copyNonEmptyFields n o) = copyNonEmptyFields n o := by
  obtain ⟨f1, f2, f3, f4, f5⟩ := copy_fields n o
  obtain ⟨g1, g2, g3, g4, g5⟩ := copy_fields n (copyNonEmptyFields n o)
  refine User_ext _ _ ?_ ?_ ?_ ?_ ?_
  · rw [g1, f1]; by_cases h : n.Name = "" <;> simp [h]
  · rw [g2, f2]; by_cases h : n.Age = "" <;> simp [h]
  · rw [g3, f3]; by_cases h : n.Contact = "" <;> simp [h]
  · rw [g4, f4]; by_cases h : n.Company = "" <;> simp [h]
  · rw [g5, f5]; by_cases h : n.Address = Address.zero <;> simp [h]

/-- C7: the record that `UpdateOne` writes is the merge of the payload over the
stored record: each of the fields Name, Age, Contact, Company and Address has
the payload's value when that value is not the zero value and the stored
record's value otherwise, and the record is written under the resource name
given by its Name.  So the stored record Bob, 30 with the payload Age 31 gives
Bob, 31; a payload with every field empty leaves the record unchanged; and
merging the same payload twice gives the same record as merging it once. -/
theorem C7_update_merge (env : Env) (fs fs2 : FS) (req : Request) (new old : User)
    (name : String)
    (hnew : env.unmarshal req.body = some new)
    (hold : Read env.unmarshal env.db fs req.collection req.resource = Except.ok old)
    (hupd : UpdateOne env fs req = (fs2, Outcome.response 200 (Payload.done "updated" name))) :
    (copyNonEmptyFields new old).Name = (if new.Name ≠ "" then new.Name else old.Name) ∧
    (copyNonEmptyFields new old).Age = (if new.Age ≠ "" then new.Age else old.Age) ∧
    (copyNonEmptyFields new old).Contact
      = (if new.Contact ≠ "" then new.Contact else old.Contact) ∧
    (copyNonEmptyFields new old).Company
      = (if new.Company ≠ "" then new.Company else old.Company) ∧
    (copyNonEmptyFields new old).Address
      = (if new.Address ≠ Address.zero then new.Address else old.Address) ∧
    name = (copyNonEmptyFields new old).Name ∧
    (∃ fs1, Write env.marshal env.db fs1 req.collection (copyNonEmptyFields new old).Name
      (copyNonEmptyFields new old) = (fs2, none)) ∧
    copyNonEmptyFields { User.zero with Age := "31" } { User.zero with Name := "Bob", Age := "30" }
      = { User.zero with Name := "Bob", Age := "31" } ∧
    copyNonEmptyFields User.zero old = old ∧
    copyNonEmptyFields new (copyNonEmptyFields new old) = copyNonEmptyFields new old := by
  obtain ⟨f1, f2, f3, f4, f5⟩ := copy_fields new old
  refine ⟨f1, f2, f3, f4, f5, ?_, ?_, by decide, ?_, ?_⟩
  · -- the name in the response
    unfold UpdateOne at hupd
    split at hupd
    · simp [errText] at hupd
    · rw [hnew] at hupd
      simp only [hold] at hupd
      split at hupd
      · simp at hupd
      · split at hupd
        · simp at hupd
        · simp only [Prod.mk.injEq, Outcome.response.injEq, Payload.done.injEq, true_and] at hupd
          exact hupd.2.symm
  · unfold UpdateOne at hupd
    split at hupd
    · simp [errText] at hupd
    · rw [hnew] at hupd
      simp only [hold] at hupd
      split at hupd
      · simp at hupd
      · next fs1 _ =>
        split at hupd
        · simp at hupd
        · next fs3 hw =>
          simp only [Prod.mk.injEq, Outcome.response.injEq, Payload.done.injEq, true_and] at hupd
          refine ⟨fs1, ?_⟩
          rw [← hupd.1]
          exact hw
  · exact copy_zero old
  · exact copy_idem new old

/-- C7 at a concrete input: the record Bob, 30 is updated with the payload
Age 31. -/
theorem C7_update_merge_witness :
    (copyNonEmptyFields { User.zero with Age := "31" }
      { User.zero with Name := "Bob", Age := "30" }).Name = "Bob" ∧
    (copyNonEmptyFields { User.zero with Age := "31" }
      { User.zero with Name := "Bob", Age := "30" }).Age = "31" ∧
    ∃ fs1, Write sampleMarshal here fs1 "users" "Bob"
        { User.zero with Name := "Bob", Age := "31" }
      = ((UpdateOne sampleEnv (CreateOne sampleEnv [] ⟨"users", "", "Bob/30"⟩).1
          ⟨"users", "Bob", "/31"⟩).1, none) := by
  have h := C7_update_merge sampleEnv (CreateOne sampleEnv [] ⟨"users", "", "Bob/30"⟩).1
    (UpdateOne sampleEnv (CreateOne sampleEnv [] ⟨"users", "", "Bob/30"⟩).1
      ⟨"users", "Bob", "/31"⟩).1
    ⟨"users", "Bob", "/31"⟩ { User.zero with Age := "31" }
    { User.zero with Name := "Bob", Age := "30" } "Bob" (by decide) (by decide) (by decide)
  exact ⟨by decide, by decide, h.2.2.2.2.2.2.1⟩

/-- C8, as stated, fails: a create whose record has an empty Name is refused by
the driver with a validation error, and `CreateOne` answers with status 500,
not 400. -/
theorem C8_driver_validation_gives_500 :
    sampleUnmarshal "/30" = some { User.zero with Age := "30" } ∧
    (Write sampleMarshal here [] "users" "" { User.zero with Age := "30" }).2
      = some (Error.validation "Missing resource name - unable to save record!") ∧
    (CreateOne sampleEnv [] ⟨"users", "", "/30"⟩).2.status = some 500 := by
  decide

/-- C8, amended: `GetAll`, `GetOne` and `CreateOne` answer with status 400
exactly when the handler itself finds a path parameter empty.  Otherwise, and
for `UpdateOne`, `DeleteAll` and `DeleteOne` whenever their path parameters are
not empty, the handler answers with status 500 when the body does not decode
or a call of the driver returns an error, of whatever kind, and with status
200 when every call succeeds.  So a validation error of the driver, such as
the empty Name of a created record, gives 500. -/
theorem C8_status_taxonomy (env : Env) (fs : FS) (req : Request) :
    (GetAll env fs req).2.status = some
      (if req.collection = "" then 400
       else match ReadAll env.db fs req.collection with
        | Except.error _ => 500
        | Except.ok _ => 200) ∧
    (GetOne env fs req).2.status = some
      (if req.collection = "" ∨ req.resource = "" then 400
       else match Read env.unmarshal env.db fs req.collection req.resource with
        | Except.error _ => 500
        | Except.ok _ => 200) ∧
    (CreateOne env fs req).2.status = some
      (if req.collection = "" then 400
       else match env.unmarshal req.body with
        | none => 500
        | some u =>
          match (Write env.marshal env.db fs req.collection u.Name u).2 with
          | some _ => 500
          | none => 200) ∧
    (req.collection ≠ "" →
      (DeleteAll env fs req).2.status = some
        (match (Delete env.db fs req.collection "").2 with
          | some _ => 500
          | none => 200)) ∧
    (req.collection ≠ "" → req.resource ≠ "" →
      (DeleteOne env fs req).2.status = some
        (match (Delete env.db fs req.collection req.resource).2 with
          | some _ => 500
          | none => 200)) ∧
    (req.collection ≠ "" → req.resource ≠ "" →
      (UpdateOne env fs req).2.status = some
        (match env.unmarshal req.body with
          | none => 500
          | some new =>
            match Read env.unmarshal env.db fs req.collection req.resource with
            | Except.error _ => 500
            | Except.ok old =>
              match (if new.Name ≠ "" ∧ new.Name ≠ old.Name
                      then Delete env.db fs req.collection old.Name else (fs, none)) with
              | (_, some _) => 500
              | (fs1, none) =>
                match (Write env.marshal env.db fs1 req.collection
                    (copyNonEmptyFields new old).Name (copyNonEmptyFields new old)).2 with
                | some _ => 500
                | none => 200)) ∧
    (∀ u, req.collection ≠ "" → env.unmarshal req.body = some u → u.Name = "" →
      (CreateOne env fs req).2.status = some 500) := by
  have hcreate : (CreateOne env fs req).2.status = some
      (if req.collection = "" then 400
       else match env.unmarshal req.body with
        | none => 500
        | some u =>
          match (Write env.marshal env.db fs req.collection u.Name u).2 with
          | some _ => 500
          | none => 200) := by
    unfold CreateOne
    split
    · rfl
    · split
      · rfl
      · next u _ =>
        rcases hw : Write env.marshal env.db fs req.collection u.Name u with ⟨fs1, _ | e⟩
        · have : Write env.marshal env.db fs req.collection u.Name
              { Name := u.Name, Contact := u.Contact, Company := u.Company, Age := u.Age,
                Address := u.Address } = (fs1, none) := hw
          simp only [this]
          rfl
        · have : Write env.marshal env.db fs req.collection u.Name
              { Name := u.Name, Contact := u.Contact, Company := u.Company, Age := u.Age,
                Address := u.Address } = (fs1, some e) := hw
          simp only [this]
          rfl
  refine ⟨?_, ?_, hcreate, ?_, ?_, ?_, ?_⟩
  · unfold GetAll
    split
    · rfl
    · split <;> rfl
  · unfold GetOne
    split
    · rfl
    · split <;> rfl
  · intro hc
    unfold DeleteAll
    rw [if_neg hc]
    rcases hd : Delete env.db fs req.collection "" with ⟨fs1, _ | e⟩ <;> rfl
  · intro hc hr
    unfold DeleteOne
    rw [if_neg (by simp [hc, hr])]
    rcases hd : Delete env.db fs req.collection req.resource with ⟨fs1, _ | e⟩ <;> rfl
  · intro hc hr
    unfold UpdateOne
    rw [if_neg (by simp [hc, hr])]
    split
    · rfl
    · next new _ =>
      split
      · rfl
      · next old _ =>
        simp only
        rcases hd : (if new.Name ≠ "" ∧ new.Name ≠ old.Name
            then Delete env.db fs req.collection old.Name else (fs, none)) with ⟨fs1, _ | e⟩
        · simp only
          rcases hw : Write env.marshal env.db fs1 req.collection
              (copyNonEmptyFields new old).Name (copyNonEmptyFields new old) with ⟨fs2, _ | e⟩
          · have : Write env.marshal env.db fs1 req.collection (copyNonEmptyFields new old).Name
                { Name := (copyNonEmptyFields new old).Name,
                  Contact := (copyNonEmptyFields new old).Contact,
                  Company := (copyNonEmptyFields new old).Company,
                  Age := (copyNonEmptyFields new old).Age,
                  Address := (copyNonEmptyFields new old).Address } = (fs2, none) := hw
            simp only [this]
            rfl
          · have : Write env.marshal env.db fs1 req.collection (copyNonEmptyFields new old).Name
                { Name := (copyNonEmptyFields new old).Name,
                  Contact := (copyNonEmptyFields new old).Contact,
                  Company := (copyNonEmptyFields new old).Company,
                  Age := (copyNonEmptyFields new old).Age,
                  Address := (copyNonEmptyFields new old).Address } = (fs2, some e) := hw
            simp only [this]
            rfl
        · rfl
  · intro u hc hu hn
    rw [hcreate, if_neg hc, hu]
    simp only [Write, writeTmp, if_neg hc, hn, if_true]

/-- C8, amended, at concrete inputs: the six handlers on a store that holds
the record Bob, and a create with an empty Name. -/
theorem C8_status_taxonomy_witness :
    (GetAll sampleEnv [] ⟨"", "", ""⟩).2.status = some 400 ∧
    (DeleteOne sampleEnv (CreateOne sampleEnv [] ⟨"users", "", "Bob/30"⟩).1
      ⟨"users", "Bob", ""⟩).2.status = some 200 ∧
    (DeleteOne sampleEnv [] ⟨"users", "Bob", ""⟩).2.status = some 500 ∧
    (CreateOne sampleEnv [] ⟨"users", "", "/30"⟩).2.status = some 500 := by
  refine ⟨?_, ?_, ?_, ?_⟩
  · exact (C8_status_taxonomy sampleEnv [] ⟨"", "", ""⟩).1
  · have h := (C8_status_taxonomy sampleEnv (CreateOne sampleEnv [] ⟨"users", "", "Bob/30"⟩).1
      ⟨"users", "Bob", ""⟩).2.2.2.2.1 (by decide) (by decide)
    rw [h]
    decide
  · have h := (C8_status_taxonomy sampleEnv [] ⟨"users", "Bob", ""⟩).2.2.2.2.1
      (by decide) (by decide)
    rw [h]
    decide
  · exact (C8_status_taxonomy sampleEnv [] ⟨"users", "", "/30"⟩).2.2.2.2.2.2
      { User.zero with Age := "30" } (by decide) (by decide) (by decide)

/-! ### The lock table -/

theorem get_append (t : LockTable) (c name : String) (m : Nat) :
    LockTable.get (t ++ [(name, m)]) c
      = match LockTable.get t c with
        | some x => some x
        | none => if name = c then some m else none := by
  induction t with
  | nil => simp [LockTable.get]
  | cons e rest ih =>
    obtain ⟨k, x⟩ := e
    simp only [List.cons_append, LockTable.get]
    by_cases hk : k = c
    · simp [hk]
    · simp only [hk, if_false]
      exact ih

/-- The lock of a collection is kept: once `getOrCreateMutex` has returned a
mutex for a name, the table holds it under that name, a call for any name
leaves it there, and a later call for the same name returns it again. -/
theorem getOrCreateMutex_stable (t : LockTable) (c other : String) :
    LockTable.get (getOrCreateMutex t c).2 c = some (getOrCreateMutex t c).1 ∧
    (∀ m, LockTable.get t c = some m →
      LockTable.get (getOrCreateMutex t other).2 c = some m) ∧
    (getOrCreateMutex (getOrCreateMutex (getOrCreateMutex t c).2 other).2 c).1
      = (getOrCreateMutex t c).1 := by
  have hkeep : ∀ (u : LockTable) (a b : String) (m : Nat), LockTable.get u a = some m →
      LockTable.get (getOrCreateMutex u b).2 a = some m := by
    intro u a b m h
    unfold getOrCreateMutex
    cases hb : LockTable.get u b with
    | some x => exact h
    | none =>
      simp only
      rw [get_append, h]
  have hfirst : ∀ (u : LockTable) (a : String),
      LockTable.get (getOrCreateMutex u a).2 a = some (getOrCreateMutex u a).1 := by
    intro u a
    unfold getOrCreateMutex
    cases ha : LockTable.get u a with
    | some x => exact ha
    | none =>
      simp only
      rw [get_append, ha]
      simp
  have hfound : ∀ (u : LockTable) (a : String) (m : Nat), LockTable.get u a = some m →
      (getOrCreateMutex u a).1 = m := by
    intro u a m h
    unfold getOrCreateMutex
    rw [h]
  exact ⟨hfirst t c, fun m h => hkeep t c other m h,
    hfound _ c _ (hkeep _ c other _ (hfirst t c))⟩

/-- The package variables of `routes`: in every store `Connect` returns the
driver of the working directory and a nil error, and changes nothing. -/
theorem Connect_eq (fs : FS) : Connect fs = (here, fs, none) := by
  have hclean : Clean "./" = "." := by decide
  have hkey : osKey "." = [] := by decide
  simp only [Connect, New, hclean, stat, osStat, hkey, FS.lookup, if_true, osMkdirAll, mkdirs]
  rfl

end GoVault
